import Mathlib


/-!
Verification of the MP3 robotics planner: the geometry kernel
(src/geometry.py), the configuration-space builder (src/transform.py) and
the search engine (src/search.py), shallowly embedded in Lean.

Real-valued Python arithmetic is modelled by the reals; the external
collaborators that are not part of the sources (the Alien class, the
MazeState class and the utils index maps) are modelled from the spec and
are marked as such in their doc comments.
-/

namespace MP3


/-! ## Geometry kernel, from src/geometry.py -/

/-- Translation of geometry.py distance: Euclidean norm of a 2D vector. -/
noncomputable def distance (p : ℝ × ℝ) : ℝ := Real.sqrt (p.1 ^ 2 + p.2 ^ 2)

/-- The divisor len_ab of point_segment_distance: the norm of the vector
ab = segment[1] - segment[0]. -/
noncomputable def len_ab (s : (ℝ × ℝ) × (ℝ × ℝ)) : ℝ :=
  distance (s.2.1 - s.1.1, s.2.2 - s.1.2)

/-- The divisor len_ba of point_segment_distance: the norm of the vector
ba = segment[0] - segment[1]. -/
noncomputable def len_ba (s : (ℝ × ℝ) × (ℝ × ℝ)) : ℝ :=
  distance (s.1.1 - s.2.1, s.1.2 - s.2.2)

/-- Translation of geometry.py point_segment_distance: the cosine test at
both endpoints decides between perpendicular distance (cross product over
segment length) and the nearer endpoint distance. -/
noncomputable def point_segment_distance (p : ℝ × ℝ) (s : (ℝ × ℝ) × (ℝ × ℝ)) : ℝ :=
  let ab : ℝ × ℝ := (s.2.1 - s.1.1, s.2.2 - s.1.2)
  let ac : ℝ × ℝ := (p.1 - s.1.1, p.2 - s.1.2)
  let cos_ab_ac : ℝ := (ab.1 * ac.1 + ab.2 * ac.2) / len_ab s
  let ba : ℝ × ℝ := (s.1.1 - s.2.1, s.1.2 - s.2.2)
  let bc : ℝ × ℝ := (p.1 - s.2.1, p.2 - s.2.2)
  let cos_ba_bc : ℝ := (ba.1 * bc.1 + ba.2 * bc.2) / len_ba s
  if 0 < cos_ab_ac ∧ 0 < cos_ba_bc then
    |(ab.1 * ac.2 - ab.2 * ac.1) / len_ab s|
  else
    min (distance ac) (distance bc)

/-- Translation of geometry.py onSegment: q within the bounding box of p, r. -/
def onSegment (p q r : ℝ × ℝ) : Prop :=
  q.1 ≤ max p.1 r.1 ∧ q.1 ≥ min p.1 r.1 ∧ q.2 ≤ max p.2 r.2 ∧ q.2 ≥ min p.2 r.2

/-- The signed value whose sign geometry.py orientation inspects. -/
def orientationVal (p q r : ℝ × ℝ) : ℝ :=
  (q.2 - p.2) * (r.1 - q.1) - (q.1 - p.1) * (r.2 - q.2)

open Classical in
/-- Translation of geometry.py orientation: 0 collinear, 1 clockwise,
2 counterclockwise. -/
noncomputable def orientation (p q r : ℝ × ℝ) : ℕ :=
  if 0 < orientationVal p q r then 1
  else if orientationVal p q r < 0 then 2
  else 0

/-- Translation of geometry.py do_segments_intersect: the straddle test on
four orientations, plus the collinear bounding-box special cases. -/
noncomputable def do_segments_intersect (s1 s2 : (ℝ × ℝ) × (ℝ × ℝ)) : Prop :=
  let p1 := s1.1; let q1 := s1.2; let p2 := s2.1; let q2 := s2.2
  (orientation p1 q1 p2 ≠ orientation p1 q1 q2 ∧
     orientation p2 q2 p1 ≠ orientation p2 q2 q1) ∨
  (orientation p1 q1 p2 = 0 ∧ onSegment p1 p2 q1) ∨
  (orientation p1 q1 q2 = 0 ∧ onSegment p1 q2 q1) ∨
  (orientation p2 q2 p1 = 0 ∧ onSegment p2 p1 q2) ∨
  (orientation p2 q2 q1 = 0 ∧ onSegment p2 q1 q2)

open Classical in
/-- Translation of geometry.py segment_distance: zero when the segments
intersect, otherwise the minimum of the four endpoint-to-segment
distances. -/
noncomputable def segment_distance (s1 s2 : (ℝ × ℝ) × (ℝ × ℝ)) : ℝ :=
  if do_segments_intersect s1 s2 then 0
  else
    min (min (min (point_segment_distance s1.1 s2) (point_segment_distance s1.2 s2))
          (point_segment_distance s2.1 s1))
      (point_segment_distance s2.2 s1)

/-- A concrete non-degenerate segment for the C8 witness. -/
def segA : (ℝ × ℝ) × (ℝ × ℝ) := ((0, 0), (1, 0))

/-- A second concrete non-degenerate segment for the C8 witness. -/
def segB : (ℝ × ℝ) × (ℝ × ℝ) := ((0, 1), (1, 1))

/-! ## The Alien collaborator and the collision predicates -/

/-- Modelled from the spec: the three morphologies of the agent. -/
inductive ShapeKind
  | Horizontal
  | Ball
  | Vertical
deriving DecidableEq

/-- Modelled from the spec: the Alien collaborator (alien.py is not part of
the sources under study). A disc has a centroid and a radius; a capsule has
a centroid, a half-width and an axis half-length from which its head and
tail points are derived. Widths and half-lengths are per-morphology. -/
structure Alien where
  centroid : ℝ × ℝ
  shape : ShapeKind
  width : ShapeKind → ℝ
  halfLen : ShapeKind → ℝ

/-- Modelled from the spec: is_circle of the Alien collaborator. -/
def Alien.is_circle (a : Alien) : Bool := a.shape = ShapeKind.Ball

/-- Modelled from the spec: get_shape of the Alien collaborator. -/
def Alien.get_shape (a : Alien) : ShapeKind := a.shape

/-- Modelled from the spec: get_width returns the current morphology's
half-width (the radius, for the disc). -/
def Alien.get_width (a : Alien) : ℝ := a.width a.shape

/-- Modelled from the spec: get_centroid of the Alien collaborator. -/
def Alien.get_centroid (a : Alien) : ℝ × ℝ := a.centroid

/-- Modelled from the spec: get_head_and_tail derives the capsule's two
endpoints from centroid and axis half-length; the horizontal capsule extends
along x (head right, tail left), the vertical one along y (head up in image
coordinates, i.e. smaller y). -/
def Alien.get_head_and_tail (a : Alien) : (ℝ × ℝ) × (ℝ × ℝ) :=
  match a.shape with
  | ShapeKind.Horizontal =>
      ((a.centroid.1 + a.halfLen a.shape, a.centroid.2),
        (a.centroid.1 - a.halfLen a.shape, a.centroid.2))
  | ShapeKind.Ball => (a.centroid, a.centroid)
  | ShapeKind.Vertical =>
      ((a.centroid.1, a.centroid.2 - a.halfLen a.shape),
        (a.centroid.1, a.centroid.2 + a.halfLen a.shape))

/-- Translation of geometry.py does_alien_touch_wall: distance of the disc
centroid (resp. capsule segment) to each wall, minus width and the
granularity over root two margin. -/
noncomputable def does_alien_touch_wall (alien : Alien) (walls : List (ℝ × ℝ × ℝ × ℝ))
    (granularity : ℝ) : Prop :=
  if alien.is_circle then
    ∃ w ∈ walls,
      point_segment_distance alien.get_centroid ((w.1, w.2.1), (w.2.2.1, w.2.2.2)) -
        alien.get_width - granularity / Real.sqrt 2 ≤ 0
  else
    ∃ w ∈ walls,
      segment_distance alien.get_head_and_tail ((w.1, w.2.1), (w.2.2.1, w.2.2.2)) -
        alien.get_width - granularity / Real.sqrt 2 ≤ 0

/-- Translation of geometry.py does_alien_touch_goal. -/
noncomputable def does_alien_touch_goal (alien : Alien) (goals : List (ℝ × ℝ × ℝ)) : Prop :=
  if alien.is_circle then
    ∃ g ∈ goals,
      distance (g.1 - alien.get_centroid.1, g.2.1 - alien.get_centroid.2) -
        alien.get_width - g.2.2 ≤ 0
  else
    ∃ g ∈ goals,
      point_segment_distance (g.1, g.2.1) alien.get_head_and_tail -
        alien.get_width - g.2.2 ≤ 0

/-- Translation of geometry.py is_alien_within_window: the function returns
False when one of the four edge checks fires, so this predicate is the
conjunction of their negations, with the source's exact inequalities (note
the ball's bottom check adds gran instead of subtracting it, as in the
source). -/
noncomputable def is_alien_within_window (alien : Alien) (window : ℝ × ℝ)
    (granularity : ℝ) : Prop :=
  let gran := granularity / Real.sqrt 2
  if alien.is_circle then
    ¬(alien.get_centroid.1 - alien.get_width - gran ≤ 0) ∧
    ¬(alien.get_centroid.1 + alien.get_width + gran ≥ window.1) ∧
    ¬(alien.get_centroid.2 + alien.get_width + gran ≥ window.2) ∧
    ¬(alien.get_centroid.2 - alien.get_width + gran ≤ 0)
  else if alien.get_shape = ShapeKind.Horizontal then
    ¬(alien.get_head_and_tail.2.1 - gran ≤ 0) ∧
    ¬(alien.get_head_and_tail.1.1 + gran ≥ window.1) ∧
    ¬(alien.get_centroid.2 - alien.get_width - gran ≤ 0) ∧
    ¬(alien.get_centroid.2 + alien.get_width + gran ≥ window.2)
  else if alien.get_shape = ShapeKind.Vertical then
    ¬(alien.get_centroid.1 - alien.get_width - gran ≤ 0) ∧
    ¬(alien.get_centroid.1 + alien.get_width + gran ≥ window.1) ∧
    ¬(alien.get_head_and_tail.1.2 - alien.get_width - gran ≤ 0) ∧
    ¬(alien.get_head_and_tail.2.2 + alien.get_width + gran ≥ window.2)
  else True

/-- The blocked predicate of claim C7 and of the configuration-space
builder's Wall condition: not within the window, or touching a wall. -/
noncomputable def blocked (alien : Alien) (window : ℝ × ℝ)
    (walls : List (ℝ × ℝ × ℝ × ℝ)) (granularity : ℝ) : Prop :=
  ¬ is_alien_within_window alien window granularity ∨
    does_alien_touch_wall alien walls granularity

/-- A concrete ball alien for the C7 counterexample: centroid (100, 5),
radius 10. -/
def ballAlien : Alien := ⟨(100, 5), ShapeKind.Ball, fun _ => 10, fun _ => 0⟩

/-- A concrete horizontal capsule for the C7 witness: centroid (0, 50),
half-width 5, half-length 20. -/
def horizAlien : Alien := ⟨(0, 50), ShapeKind.Horizontal, fun _ => 5, fun _ => 20⟩

/-! ## Configuration-space builder, from src/transform.py -/

/-- The morphology level of transform.py: 0 Horizontal, 1 Ball, 2 Vertical. -/
def shapeIdx : ShapeKind → ℕ
  | ShapeKind.Horizontal => 0
  | ShapeKind.Ball => 1
  | ShapeKind.Vertical => 2

/-- The shape set by the loop for morphology levels 0, 1, 2. -/
def shapeOfIdx : ℕ → ShapeKind
  | 0 => ShapeKind.Horizontal
  | 1 => ShapeKind.Ball
  | _ => ShapeKind.Vertical

/-- Modelled from the spec: set_alien_config repositions a working copy of
the alien to the given pose and morphology. -/
def set_alien_config (a : Alien) (c : ℝ × ℝ × ShapeKind) : Alien :=
  { a with centroid := (c.1, c.2.1), shape := c.2.2 }

/-- Modelled from the spec: idxToConfig of utils.py (utils.py is not among
the sources), the deterministic affine index-to-pose map with zero offsets;
the third component is the queried alien's current shape. -/
def idxToConfig (x y granularity : ℕ) (alien : Alien) : ℝ × ℝ × ShapeKind :=
  (((x * granularity : ℕ) : ℝ), ((y * granularity : ℕ) : ℝ), alien.shape)

/-- Modelled from the spec: configToIdx of utils.py, the pose-to-index
affine map with zero offsets: the integer part of each coordinate divided by
the granularity (for the nonnegative coordinates of poses inside the window
the integer part is the floor). -/
noncomputable def configToIdx (c : ℝ × ℝ) (granularity : ℕ) : ℤ × ℤ :=
  (⌊c.1 / (granularity : ℝ)⌋, ⌊c.2 / (granularity : ℝ)⌋)

/-- The working copy of the alien the classification loop produces for
morphology level m at cell (x, y): a deep copy of the input alien
repositioned to the cell's pose with the level's morphology. -/
def cellAlien (alien : Alien) (granularity m x y : ℕ) : Alien :=
  set_alien_config alien
    ((idxToConfig x y granularity alien).1, (idxToConfig x y granularity alien).2.1,
      shapeOfIdx m)

/-- The numpy label grid of transformToMaze: its allocated shape and a total
map from index triples to characters. -/
structure Grid where
  dim0 : ℕ
  dim1 : ℕ
  dim2 : ℕ
  data : ℕ → ℕ → ℕ → Char

/-- A single numpy write maze[i][j][k] = c; an out-of-range index raises,
which the model reports as none. -/
def gridWrite (g : Grid) (i j k : ℕ) (c : Char) : Option Grid :=
  if i < g.dim0 ∧ j < g.dim1 ∧ k < g.dim2 then
    some { g with
      data := fun i' j' k' => if i' = i ∧ j' = j ∧ k' = k then c else g.data i' j' k' }
  else none

/-- The final write of transformToMaze, whose x and y indices come from
configToIdx and are integers. A numpy index that is negative but within
range wraps around; no claim depends on a negative start index, and the
model reports a negative index as out of range. -/
def gridWriteZ (g : Grid) (i : ℕ) (j k : ℤ) (c : Char) : Option Grid :=
  if 0 ≤ j ∧ 0 ≤ k then gridWrite g i j.toNat k.toNat c else none

/-- The classification loop's Wall condition for morphology level m at cell
(x, y): the repositioned alien is not within the window, or touches a
wall. -/
noncomputable def wallCond (alien : Alien) (walls : List (ℝ × ℝ × ℝ × ℝ))
    (window : ℕ × ℕ) (granularity m x y : ℕ) : Prop :=
  ¬ is_alien_within_window (cellAlien alien granularity m x y)
      ((window.1 : ℝ), (window.2 : ℝ)) (granularity : ℝ) ∨
    does_alien_touch_wall (cellAlien alien granularity m x y) walls (granularity : ℝ)

/-- The classification loop's Goal condition for morphology level m at cell
(x, y). -/
noncomputable def goalCond (alien : Alien) (goals : List (ℝ × ℝ × ℝ))
    (granularity m x y : ℕ) : Prop :=
  does_alien_touch_goal (cellAlien alien granularity m x y) goals

open Classical in
/-- The character the classification loop stores for morphology level m at
cell (x, y): the Wall mark when the repositioned alien is not within the
window or touches a wall, else the Goal mark when it touches a goal, else
the Free mark. -/
noncomputable def classifyChar (alien : Alien) (goals : List (ℝ × ℝ × ℝ))
    (walls : List (ℝ × ℝ × ℝ × ℝ)) (window : ℕ × ℕ) (granularity m x y : ℕ) : Char :=
  if wallCond alien walls window granularity m x y then '%'
  else if goalCond alien goals granularity m x y then '.'
  else ' '

/-- The index triples the classification loop writes, in loop order: for
each x then y, the three writes maze[0][x][y], maze[1][x][y],
maze[2][x][y]. -/
def writeTriples (nx ny : ℕ) : List (ℕ × ℕ × ℕ) :=
  (List.range nx).flatMap fun x =>
    (List.range ny).flatMap fun y => [(0, x, y), (1, x, y), (2, x, y)]

/-- The classification loop of transformToMaze: the grid is allocated with
numpy shape (num_x_positions, num_y_positions, 3) filled with the Wall mark,
then every cell is classified through writes indexed
maze[morphology][x][y]. -/
noncomputable def buildLoop (alien : Alien) (goals : List (ℝ × ℝ × ℝ))
    (walls : List (ℝ × ℝ × ℝ × ℝ)) (window : ℕ × ℕ) (granularity nx ny : ℕ) :
    Option Grid :=
  (writeTriples nx ny).foldlM
    (fun g t =>
      gridWrite g t.1 t.2.1 t.2.2 (classifyChar alien goals walls window granularity t.1 t.2.1 t.2.2))
    ⟨nx, ny, 3, fun _ _ _ => '%'⟩

/-- Translation of transform.py transformToMaze: grid extents from the
window over the granularity, the classification loop, then the start
overwrite maze[shape][start.x][start.y] = P, where shape comes from the
loop's leftover config variable, which under the spec-modelled idxToConfig
carries the alien's original morphology. The Maze object construction and
the file save are external and out of scope; the result is the label grid,
or none when a numpy access is out of range. -/
noncomputable def transformToMaze (alien : Alien) (goals : List (ℝ × ℝ × ℝ))
    (walls : List (ℝ × ℝ × ℝ × ℝ)) (window : ℕ × ℕ) (granularity : ℕ) : Option Grid :=
  let nx := window.1 / granularity + 1
  let ny := window.2 / granularity + 1
  let alien_start := configToIdx alien.centroid granularity
  (buildLoop alien goals walls window granularity nx ny).bind fun grid =>
    gridWriteZ grid (shapeIdx alien.shape) alien_start.1 alien_start.2 'P'

/-- A concrete ball alien whose start cell lies inside the 3 by 3 grid of a
2 by 2 window at granularity 1. -/
def startAlien : Alien := ⟨(1, 1), ShapeKind.Ball, fun _ => 1, fun _ => 1⟩

/-! ## Search engine, from src/search.py -/

/-- Modelled from the spec: the search problem the external Maze and
MazeState collaborators expose — a finite set of configuration-space cells
(abstract identifiers standing for the (alpha, beta, gamma) triples), a
neighbor function with positive edge weights closed over the cell set, a
goal test and a start cell. No heuristic is provided by this collaborator
model, so the heap priority is the accumulated cost. -/
structure SProblem where
  numNodes : ℕ
  neighbors : ℕ → List (ℕ × ℕ)
  isGoal : ℕ → Bool
  start : ℕ
  hstart : start < numNodes
  hclosed : ∀ u p, p ∈ neighbors u → p.1 < numNodes
  hpos : ∀ u p, p ∈ neighbors u → 0 < p.2

/-- Modelled from the spec: a MazeState value — its cell and its
dist_from_start. States are value-equal by cell; the heap orders them by
accumulated cost, ties broken by order of arrival. -/
structure MS where
  node : ℕ
  dist : ℕ
deriving DecidableEq

/-- Modelled from the spec: get_neighbors creates neighbor states whose
dist_from_start accumulates from the queried state's own dist. -/
def getNeighbors (P : SProblem) (s : MS) : List MS :=
  (P.neighbors s.node).map fun p => ⟨p.1, s.dist + p.2⟩

/-- The heapq model: heappop removes the least entry under the states'
order (accumulated cost, ties broken by order of arrival, matching the
spec's insertion-order tie break), and frontier[0] peeks at that same
entry. -/
def popMin : List MS → Option (MS × List MS)
  | [] => none
  | x :: xs =>
    match popMin xs with
    | none => some (x, [])
    | some (m, rest) => if x.dist ≤ m.dist then some (x, xs) else some (m, x :: rest)

/-- Lookup in the visited_states dictionary, keyed by cell (states are
value-equal by their coordinate triple): predecessor cell (none for the
start) and best known cost. -/
def vlookup : List (ℕ × Option ℕ × ℕ) → ℕ → Option (Option ℕ × ℕ)
  | [], _ => none
  | (k, v) :: rest, n => if k = n then some v else vlookup rest n

/-- Dictionary update: replace the entry of an existing key, else append. -/
def vset : List (ℕ × Option ℕ × ℕ) → ℕ → Option ℕ × ℕ → List (ℕ × Option ℕ × ℕ)
  | [], n, v => [(n, v)]
  | (k, w) :: rest, n, v => if k = n then (n, v) :: rest else (k, w) :: vset rest n v

/-- The state of astar's while loop: the frontier heap, the visited_states
dictionary, the goal_reached flag, the goal variable, and the trace of
cells get_neighbors has been called on (the interaction log with the
external state collaborator). -/
structure Cfg where
  frontier : List MS
  visited : List (ℕ × Option ℕ × ℕ)
  goal_reached : Bool
  goal : Option MS
  callLog : List ℕ
deriving DecidableEq

/-- The three ways astar can come back: a path (the list of cells from
start to goal), Python None for no path found, or a raised exception. -/
inductive AstarOutcome
  | path (p : List ℕ)
  | noPath
  | err
deriving DecidableEq

/-- One loop iteration either leaves the loop with an outcome or continues
with a new configuration. -/
inductive StepRes
  | done (r : AstarOutcome)
  | next (c : Cfg)
deriving DecidableEq

/-- Translation of search.py backtrack: walk predecessor pointers from the
goal until the state with no predecessor, prepending as we go (which yields
the reversed list directly). The fuel bounds the walk; the invariants give
predecessor chains of strictly decreasing cost, so the chosen fuel always
suffices, and exhausting it (a cyclic predecessor map, on which Python
would not terminate) or a missing key (Python's KeyError) is reported as
none. -/
def backtrackAux (visited : List (ℕ × Option ℕ × ℕ)) :
    ℕ → ℕ → List ℕ → Option (List ℕ)
  | 0, _, _ => none
  | fuel + 1, node, acc =>
    match vlookup visited node with
    | none => none
    | some (none, _) => some (node :: acc)
    | some (some parent, _) => backtrackAux visited fuel parent (node :: acc)

/-- Translation of search.py backtrack applied to a goal state; the fuel
state.dist + 1 covers every predecessor chain the invariants admit. -/
def backtrack (visited : List (ℕ × Option ℕ × ℕ)) (state : MS) : Option (List ℕ) :=
  backtrackAux visited (state.dist + 1) state.node []

/-- The neighbor loop of astar's body: push and record a neighbor that is
unseen, or seen with a strictly larger recorded cost; skip it otherwise.
The predecessor recorded is the popped state's cell. -/
def relaxList (stn : ℕ) :
    List MS → List MS × List (ℕ × Option ℕ × ℕ) → List MS × List (ℕ × Option ℕ × ℕ)
  | [], acc => acc
  | nbr :: rest, acc =>
    relaxList stn rest
      (match vlookup acc.2 nbr.node with
       | some (_, d) =>
         if nbr.dist < d then (acc.1 ++ [nbr], vset acc.2 nbr.node (some stn, nbr.dist))
         else acc
       | none => (acc.1 ++ [nbr], vset acc.2 nbr.node (some stn, nbr.dist)))

/-- Translation of one evaluation of astar's while condition plus, when the
condition holds, one execution of the loop body. Python evaluates
(not goal_reached or not frontier[0].is_goal()) before len(frontier) != 0,
so with goal_reached set and an empty frontier the peek raises; with the
condition false the function returns backtrack(visited_states, goal) when
the frontier is nonempty and None when the loop was left on an empty
frontier. The body pops the least state; if it is a goal it sets
goal_reached, stores it in goal and pushes it back; it then unconditionally
calls get_neighbors on the popped state (appending its cell to the log) and
pushes and records every unseen or strictly improving neighbor. -/
def astarStep (P : SProblem) (c : Cfg) : StepRes :=
  match popMin c.frontier with
  | none => if c.goal_reached then .done .err else .done .noPath
  | some (st, rest) =>
    if c.goal_reached ∧ P.isGoal st.node then
      match c.goal with
      | none => .done .err
      | some g =>
        match backtrack c.visited g with
        | none => .done .err
        | some p => .done (.path p)
    else
      let gr2 := if P.isGoal st.node then true else c.goal_reached
      let goal2 := if P.isGoal st.node then some st else c.goal
      let fr1 := if P.isGoal st.node then rest ++ [st] else rest
      let res := relaxList st.node (getNeighbors P st) (fr1, c.visited)
      .next ⟨res.1, res.2, gr2, goal2, c.callLog ++ [st.node]⟩

/-- The while loop with explicit fuel (none = fuel exhausted; a sufficient
fuel exists for every well-formed configuration, see the termination
theorem). -/
def astarLoop (P : SProblem) : ℕ → Cfg → Option AstarOutcome
  | 0, _ => none
  | fuel + 1, c =>
    match astarStep P c with
    | .done r => some r
    | .next c2 => astarLoop P fuel c2

/-- Translation of astar's initialisation: visited_states maps the start to
(None, 0) and the frontier holds the start state at cost 0. -/
def initCfg (P : SProblem) : Cfg :=
  ⟨[⟨P.start, 0⟩], [(P.start, none, 0)], false, none, []⟩

/-- Translation of search.py astar with explicit loop fuel. The dead early
return of the empty list is modelled faithfully but cannot fire, since the
start state was just pushed. -/
def astar (P : SProblem) (fuel : ℕ) : Option AstarOutcome :=
  if (initCfg P).frontier.length = 0 then some (.path [])
  else astarLoop P fuel (initCfg P)

/-- Iterate the loop step a fixed number of times, for inspecting concrete
runs. -/
def loopIter (P : SProblem) : ℕ → Cfg → StepRes
  | 0, c => .next c
  | n + 1, c =>
    match loopIter P n c with
    | .done r => .done r
    | .next c2 => astarStep P c2

/-- A walk from the start cell along the neighbor relation, with its
accumulated cost. -/
inductive WalkTo (P : SProblem) : ℕ → ℕ → Prop
  | start : WalkTo P P.start 0
  | step {u d m w} : WalkTo P u d → (m, w) ∈ P.neighbors u → WalkTo P m (d + w)

/-- A nonempty list of cells whose consecutive pairs are edges of the
neighbor relation. -/
def listChain (P : SProblem) (l : List ℕ) : Prop :=
  l ≠ [] ∧ l.Chain' fun u v => ∃ w, (v, w) ∈ P.neighbors u

/-- Build a concrete search problem from an adjacency list and a goal
list. -/
def mkProblem (nbrs : List (List (ℕ × ℕ))) (goals : List ℕ) (hlen : 0 < nbrs.length)
    (hok : ∀ e ∈ nbrs, ∀ p ∈ e, p.1 < nbrs.length ∧ 0 < p.2) : SProblem where
  numNodes := nbrs.length
  neighbors := fun u => nbrs.getD u []
  isGoal := fun z => goals.contains z
  start := 0
  hstart := hlen
  hclosed := fun u p hp => by
    have hp2 : p ∈ nbrs.getD u [] := hp
    rcases lt_or_ge u nbrs.length with hu | hu
    · rw [List.getD_eq_getElem nbrs [] hu] at hp2
      exact (hok _ (List.getElem_mem hu) p hp2).1
    · rw [List.getD_eq_default] at hp2
      · cases hp2
      · exact hu
  hpos := fun u p hp => by
    have hp2 : p ∈ nbrs.getD u [] := hp
    rcases lt_or_ge u nbrs.length with hu | hu
    · rw [List.getD_eq_getElem nbrs [] hu] at hp2
      exact (hok _ (List.getElem_mem hu) p hp2).2
    · rw [List.getD_eq_default] at hp2
      · cases hp2
      · exact hu

/-- The four-cell problem of the C4 counterexample: start 0 with a direct
costly edge to cell 1 and a cheap two-step path through cell 2; cell 3 is
the goal, far behind cell 1. -/
def P4 : SProblem :=
  mkProblem [[(1, 10), (2, 1)], [(3, 20)], [(1, 1)], []] [3] (by decide) (by decide)

/-- The configuration reached after three iterations of astar on P4: the
stale entry for cell 1 at cost 10 sits at the top of the frontier while the
visited map already records cost 2 for cell 1. -/
def cfg3val : Cfg :=
  ⟨[⟨1, 10⟩, ⟨3, 22⟩], [(0, none, 0), (1, some 2, 2), (2, some 0, 1), (3, some 1, 22)],
    false, none, [0, 2, 1]⟩

/-- The five-cell problem of the C5 counterexample: the goal cell 1 and the
free cell 2 are both at cost 2 from the start, the goal arriving first in
the heap; cells 3 and 4 hang off them. -/
def P5 : SProblem :=
  mkProblem [[(1, 2), (2, 2)], [(3, 1)], [(4, 1)], [], []] [1] (by decide) (by decide)

/-- The configuration reached after one iteration of astar on P5: the goal
state for cell 1 is the least entry of the frontier and goal_reached is
still false. -/
def cfg1five : Cfg :=
  ⟨[⟨1, 2⟩, ⟨2, 2⟩], [(0, none, 0), (1, some 0, 2), (2, some 0, 2)], false, none, [0]⟩

/-- The configuration reached after three iterations of astar on P5: after
the goal was popped, the search expanded the goal itself and then the
non-goal cell 2. -/
def cfg3five : Cfg :=
  ⟨[⟨1, 2⟩, ⟨3, 3⟩, ⟨4, 3⟩],
    [(0, none, 0), (1, some 0, 2), (2, some 0, 2), (3, some 1, 3), (4, some 2, 3)],
    true, some ⟨1, 2⟩, [0, 1, 2]⟩

/-! ### The loop invariant -/

/-- The run invariant tying the visited dictionary and the frontier to the
search problem, independent of the goal bookkeeping. -/
structure Core (P : SProblem) (fr : List MS) (vis : List (ℕ × Option ℕ × ℕ)) : Prop where
  vkeys : (vis.map Prod.fst).Nodup
  vbound : ∀ e ∈ vis, e.1 < P.numNodes
  vstart : vlookup vis P.start = some (none, 0)
  vparent : ∀ n q dv, vlookup vis n = some (some q, dv) →
    ∃ w pq dq, (n, w) ∈ P.neighbors q ∧ vlookup vis q = some (pq, dq) ∧ dq + w ≤ dv
  vparent_none : ∀ n dv, vlookup vis n = some (none, dv) → n = P.start
  vwalk : ∀ n pv dv, vlookup vis n = some (pv, dv) → WalkTo P n dv
  fvis : ∀ s ∈ fr, ∃ pv dv, vlookup vis s.node = some (pv, dv) ∧ dv ≤ s.dist
  fwalk : ∀ s ∈ fr, WalkTo P s.node s.dist
  relax : ∀ n pv dv, vlookup vis n = some (pv, dv) → ∀ m w, (m, w) ∈ P.neighbors n →
    (∃ pm dm, vlookup vis m = some (pm, dm) ∧ dm ≤ dv + w) ∨ (⟨n, dv⟩ : MS) ∈ fr

/-- The full invariant of astar's loop. -/
structure WF (P : SProblem) (c : Cfg) : Prop where
  core : Core P c.frontier c.visited
  goalfront : c.goal_reached = false → ∀ z pz dz, P.isGoal z = true →
    vlookup c.visited z = some (pz, dz) → (⟨z, dz⟩ : MS) ∈ c.frontier
  goalinv : c.goal_reached = true → ∃ g, c.goal = some g ∧ P.isGoal g.node = true ∧
    (∃ s ∈ c.frontier, P.isGoal s.node = true) ∧
    (∃ pg dg, vlookup c.visited g.node = some (pg, dg) ∧ dg ≤ g.dist) ∧
    ∀ z d, P.isGoal z = true → WalkTo P z d → g.dist ≤ d

/-- What one pass of the neighbor loop guarantees: the frontier only grows
by pushed neighbors; the visited map changes only at neighbor cells, always
to a strict improvement recorded with the popped cell as predecessor and
matched by a push; every processed neighbor ends with a recorded cost at
most its own; entries are old or neighbor-keyed and key distinctness is
kept. -/
structure RelaxOut (stn : ℕ) (nbrs fr : List MS) (vis : List (ℕ × Option ℕ × ℕ))
    (res : List MS × List (ℕ × Option ℕ × ℕ)) : Prop where
  append : ∃ added, res.1 = fr ++ added ∧ ∀ s ∈ added, s ∈ nbrs
  change : ∀ n, vlookup res.2 n = vlookup vis n ∨
    ∃ nbr, nbr ∈ nbrs ∧ nbr.node = n ∧
      vlookup res.2 n = some (some stn, nbr.dist) ∧
      (⟨n, nbr.dist⟩ : MS) ∈ res.1 ∧
      ∀ pv dv, vlookup vis n = some (pv, dv) → nbr.dist < dv
  relaxed : ∀ nbr ∈ nbrs, ∃ pm dm,
    vlookup res.2 nbr.node = some (pm, dm) ∧ dm ≤ nbr.dist
  entries : ∀ e ∈ res.2, e ∈ vis ∨ ∃ nbr, nbr ∈ nbrs ∧ e.1 = nbr.node
  goodkeys : (vis.map Prod.fst).Nodup → (res.2.map Prod.fst).Nodup

/-- The triple of quantities that shrinks lexicographically with every
continuing step: unvisited-cell count, total recorded cost, frontier size
with the pending-goal bit. -/
def measureFr (c : Cfg) : ℕ := c.frontier.length + (if c.goal_reached then 0 else 1)

/-- A walk from the start counted by number of edges. -/
inductive WalkN (P : SProblem) : ℕ → ℕ → Prop
  | start : WalkN P P.start 0
  | step {u e m w} : WalkN P u e → (m, w) ∈ P.neighbors u → WalkN P m (e + 1)

/-- The two-cell problem with no edges at all: the goal cell 1 is
unreachable from the start cell 0. -/
def P6 : SProblem := mkProblem [[], []] [1] (by decide) (by decide)

/-- The four-cell unit-cost problem of the C3 witness: a direct two-edge
route 0-1-3 to the goal 3 and an equally long route through 2. -/
def P3 : SProblem :=
  mkProblem [[(1, 1), (2, 1)], [(3, 1)], [(3, 1)], []] [3] (by decide) (by decide)

/-! ## Theorems -/

/-! Basic facts about distance. -/

theorem distance_nonneg (p : ℝ × ℝ) : 0 ≤ distance p := Real.sqrt_nonneg _

theorem distance_eq_zero_iff (p : ℝ × ℝ) : distance p = 0 ↔ p.1 = 0 ∧ p.2 = 0 := by
  unfold distance
  constructor
  · intro h
    have hsum : p.1 ^ 2 + p.2 ^ 2 = 0 := by
      have h0 : 0 ≤ p.1 ^ 2 + p.2 ^ 2 := by positivity
      have := Real.sqrt_eq_zero h0 |>.mp h
      linarith
    constructor
    · nlinarith [sq_nonneg p.1, sq_nonneg p.2]
    · nlinarith [sq_nonneg p.1, sq_nonneg p.2]
  · rintro ⟨h1, h2⟩
    rw [h1, h2]
    simp

theorem distance_ne_zero_of_ne {p : ℝ × ℝ} (h : p ≠ (0, 0)) : distance p ≠ 0 := by
  intro h0
  rcases (distance_eq_zero_iff p).mp h0 with ⟨h1, h2⟩
  exact h (Prod.ext h1 h2)

/-- C9: point_segment_distance divides by the lengths len_ab and len_ba of its
segment argument; a zero-length segment (coincident endpoints) makes those
divisors zero, while a segment with distinct endpoints makes every divisor
nonzero, so no division by zero occurs. -/
theorem C9_point_segment_distance_divisors (s : (ℝ × ℝ) × (ℝ × ℝ)) :
    (s.1 = s.2 → len_ab s = 0 ∧ len_ba s = 0) ∧
    (s.1 ≠ s.2 → len_ab s ≠ 0 ∧ len_ba s ≠ 0) := by
  constructor
  · intro h
    unfold len_ab len_ba
    rw [h]
    constructor <;> · simp [distance_eq_zero_iff]
  · intro h
    have hne : (s.2.1 - s.1.1, s.2.2 - s.1.2) ≠ ((0 : ℝ), (0 : ℝ)) := by
      intro hz
      apply h
      have h1 : s.2.1 - s.1.1 = 0 := congrArg Prod.fst hz
      have h2 : s.2.2 - s.1.2 = 0 := congrArg Prod.snd hz
      have : s.1.1 = s.2.1 := by linarith
      have : s.1.2 = s.2.2 := by linarith
      exact Prod.ext (by linarith) (by linarith)
    have hne' : (s.1.1 - s.2.1, s.1.2 - s.2.2) ≠ ((0 : ℝ), (0 : ℝ)) := by
      intro hz
      apply hne
      have h1 : s.1.1 - s.2.1 = 0 := congrArg Prod.fst hz
      have h2 : s.1.2 - s.2.2 = 0 := congrArg Prod.snd hz
      exact Prod.ext (by simp; linarith) (by simp; linarith)
    exact ⟨distance_ne_zero_of_ne hne, distance_ne_zero_of_ne hne'⟩

/-- Witness for C9 at a concrete non-degenerate segment. -/
theorem C9_witness :
    (((0 : ℝ), (0 : ℝ)), ((3 : ℝ), (4 : ℝ))).1 ≠ (((0 : ℝ), (0 : ℝ)), ((3 : ℝ), (4 : ℝ))).2 ∧
    len_ab (((0 : ℝ), (0 : ℝ)), ((3 : ℝ), (4 : ℝ))) ≠ 0 ∧
    len_ba (((0 : ℝ), (0 : ℝ)), ((3 : ℝ), (4 : ℝ))) ≠ 0 := by
  have hne : (((0 : ℝ), (0 : ℝ)), ((3 : ℝ), (4 : ℝ))).1 ≠ (((0 : ℝ), (0 : ℝ)), ((3 : ℝ), (4 : ℝ))).2 := by
    simp [Prod.ext_iff]
  exact ⟨hne, (C9_point_segment_distance_divisors _).2 hne⟩

theorem point_segment_distance_nonneg (p : ℝ × ℝ) (s : (ℝ × ℝ) × (ℝ × ℝ)) :
    0 ≤ point_segment_distance p s := by
  simp only [point_segment_distance]
  split_ifs with h
  · exact abs_nonneg _
  · exact le_min (distance_nonneg _) (distance_nonneg _)

theorem min_eq_zero_cases {x y : ℝ} (hx : 0 ≤ x) (hy : 0 ≤ y) (h : min x y = 0) :
    x = 0 ∨ y = 0 := by
  rcases le_total x y with h' | h'
  · left; rw [min_eq_left h'] at h; exact h
  · right; rw [min_eq_right h'] at h; exact h

theorem between_of_mul_nonpos {u v t : ℝ} (h : (t - u) * (t - v) ≤ 0) :
    min u v ≤ t ∧ t ≤ max u v := by
  rcases le_total u v with huv | huv
  · rw [min_eq_left huv, max_eq_right huv]
    constructor <;> nlinarith [h]
  · rw [min_eq_right huv, max_eq_left huv]
    constructor <;> nlinarith [h]

/-- Core algebra behind the perpendicular branch of point_segment_distance:
when the foot test passes on both endpoints and the cross product vanishes,
the point's offsets along each axis lie between those of the endpoints. -/
theorem between_of_dots {abx aby acx acy : ℝ}
    (hcross : abx * acy - aby * acx = 0)
    (hdot1 : 0 < abx * acx + aby * acy)
    (hdot2 : 0 < -abx * (acx - abx) + -aby * (acy - aby)) :
    acx * (acx - abx) ≤ 0 ∧ acy * (acy - aby) ≤ 0 := by
  have e1 : acx * (abx * acx + aby * acy) = abx * (acx ^ 2 + acy ^ 2) := by
    linear_combination (-acy) * hcross
  have e2 : (acx - abx) * (-abx * (acx - abx) + -aby * (acy - aby)) =
      -abx * ((acx - abx) ^ 2 + (acy - aby) ^ 2) := by
    linear_combination (acy - aby) * hcross
  have e1y : acy * (abx * acx + aby * acy) = aby * (acx ^ 2 + acy ^ 2) := by
    linear_combination acx * hcross
  have e2y : (acy - aby) * (-abx * (acx - abx) + -aby * (acy - aby)) =
      -aby * ((acx - abx) ^ 2 + (acy - aby) ^ 2) := by
    linear_combination (-(acx - abx)) * hcross
  have hS1 : (0 : ℝ) ≤ acx ^ 2 + acy ^ 2 := by positivity
  have hS2 : (0 : ℝ) ≤ (acx - abx) ^ 2 + (acy - aby) ^ 2 := by positivity
  have hdd : 0 < (abx * acx + aby * acy) * (-abx * (acx - abx) + -aby * (acy - aby)) :=
    mul_pos hdot1 hdot2
  have e3 : (acx * (acx - abx)) *
        ((abx * acx + aby * acy) * (-abx * (acx - abx) + -aby * (acy - aby))) =
      -(abx ^ 2 * ((acx ^ 2 + acy ^ 2) * ((acx - abx) ^ 2 + (acy - aby) ^ 2))) := by
    linear_combination ((acx - abx) * (-abx * (acx - abx) + -aby * (acy - aby))) * e1 +
      (abx * (acx ^ 2 + acy ^ 2)) * e2
  have e3y : (acy * (acy - aby)) *
        ((abx * acx + aby * acy) * (-abx * (acx - abx) + -aby * (acy - aby))) =
      -(aby ^ 2 * ((acx ^ 2 + acy ^ 2) * ((acx - abx) ^ 2 + (acy - aby) ^ 2))) := by
    linear_combination ((acy - aby) * (-abx * (acx - abx) + -aby * (acy - aby))) * e1y +
      (aby * (acx ^ 2 + acy ^ 2)) * e2y
  constructor
  · nlinarith [e3, hdd, mul_nonneg (sq_nonneg abx) (mul_nonneg hS1 hS2)]
  · nlinarith [e3y, hdd, mul_nonneg (sq_nonneg aby) (mul_nonneg hS1 hS2)]

/-- When point_segment_distance is zero and the segment is non-degenerate,
the point is collinear with the segment and inside its bounding box: exactly
the collinear special case do_segments_intersect tests. -/
theorem psd_eq_zero_mem (p : ℝ × ℝ) (s : (ℝ × ℝ) × (ℝ × ℝ))
    (hnd : s.1 ≠ s.2) (h0 : point_segment_distance p s = 0) :
    orientationVal s.1 s.2 p = 0 ∧ onSegment s.1 p s.2 := by
  obtain ⟨⟨ax, ay⟩, ⟨bx, b2⟩⟩ := s
  have hab_ne : ((bx - ax, b2 - ay) : ℝ × ℝ) ≠ (0, 0) := by
    intro hz
    apply hnd
    have h1 : bx - ax = 0 := congrArg Prod.fst hz
    have h2 : b2 - ay = 0 := congrArg Prod.snd hz
    exact Prod.ext (by simp; linarith) (by simp; linarith)
  have hba_ne : ((ax - bx, ay - b2) : ℝ × ℝ) ≠ (0, 0) := by
    intro hz
    apply hab_ne
    have h1 : ax - bx = 0 := congrArg Prod.fst hz
    have h2 : ay - b2 = 0 := congrArg Prod.snd hz
    exact Prod.ext (by simp; linarith) (by simp; linarith)
  have hlab_pos : 0 < len_ab ((ax, ay), (bx, b2)) :=
    lt_of_le_of_ne (distance_nonneg _) (Ne.symm (distance_ne_zero_of_ne hab_ne))
  have hlba_pos : 0 < len_ba ((ax, ay), (bx, b2)) :=
    lt_of_le_of_ne (distance_nonneg _) (Ne.symm (distance_ne_zero_of_ne hba_ne))
  simp only [point_segment_distance] at h0
  split_ifs at h0 with hcond
  · obtain ⟨hc1, hc2⟩ := hcond
    have hdot1 : 0 < (bx - ax) * (p.1 - ax) + (b2 - ay) * (p.2 - ay) := by
      have hm := mul_pos hc1 hlab_pos
      rwa [div_mul_cancel₀ _ (ne_of_gt hlab_pos)] at hm
    have hdot2 : 0 < (ax - bx) * (p.1 - bx) + (ay - b2) * (p.2 - b2) := by
      have hm := mul_pos hc2 hlba_pos
      rwa [div_mul_cancel₀ _ (ne_of_gt hlba_pos)] at hm
    have hcross : (bx - ax) * (p.2 - ay) - (b2 - ay) * (p.1 - ax) = 0 := by
      have habs := abs_eq_zero.mp h0
      rcases div_eq_zero_iff.mp habs with h | h
      · exact h
      · exact absurd h (ne_of_gt hlab_pos)
    have hdot2' : 0 < -(bx - ax) * ((p.1 - ax) - (bx - ax)) +
        -(b2 - ay) * ((p.2 - ay) - (b2 - ay)) := by
      have heq : (ax - bx) * (p.1 - bx) + (ay - b2) * (p.2 - b2) =
          -(bx - ax) * ((p.1 - ax) - (bx - ax)) + -(b2 - ay) * ((p.2 - ay) - (b2 - ay)) := by
        ring
      rwa [heq] at hdot2
    obtain ⟨hbx', hby'⟩ := between_of_dots hcross hdot1 hdot2'
    constructor
    · unfold orientationVal
      simp only
      linear_combination (-1 : ℝ) * hcross
    · have hxx : (p.1 - ax) * (p.1 - bx) ≤ 0 := by nlinarith [hbx']
      have hyy : (p.2 - ay) * (p.2 - b2) ≤ 0 := by nlinarith [hby']
      obtain ⟨hx1, hx2⟩ := between_of_mul_nonpos hxx
      obtain ⟨hy1, hy2⟩ := between_of_mul_nonpos hyy
      exact ⟨hx2, hx1, hy2, hy1⟩
  · have hd1 := distance_nonneg (p.1 - ax, p.2 - ay)
    have hd2 := distance_nonneg (p.1 - bx, p.2 - b2)
    rcases min_eq_zero_cases hd1 hd2 h0 with hz | hz
    · obtain ⟨h1, h2⟩ := (distance_eq_zero_iff _).mp hz
      simp only at h1 h2
      constructor
      · unfold orientationVal
        simp only
        linear_combination (b2 - ay) * h1 + (-(bx - ax)) * h2
      · have hp1 : p.1 = ax := by linarith
        have hp2 : p.2 = ay := by linarith
        refine ⟨?_, ?_, ?_, ?_⟩ <;> simp [hp1, hp2, le_max_left, min_le_left]
    · obtain ⟨h1, h2⟩ := (distance_eq_zero_iff _).mp hz
      simp only at h1 h2
      constructor
      · unfold orientationVal
        simp only
        linear_combination (b2 - ay) * h1 + (-(bx - ax)) * h2
      · have hp1 : p.1 = bx := by linarith
        have hp2 : p.2 = b2 := by linarith
        refine ⟨?_, ?_, ?_, ?_⟩ <;> simp [hp1, hp2, le_max_right, min_le_right]

theorem orientation_eq_zero_iff (p q r : ℝ × ℝ) :
    orientation p q r = 0 ↔ orientationVal p q r = 0 := by
  unfold orientation
  split_ifs with h1 h2
  · constructor
    · intro h; exact absurd h (by norm_num)
    · intro h; exact absurd h (by linarith)
  · constructor
    · intro h; exact absurd h (by norm_num)
    · intro h; exact absurd h (by linarith)
  · constructor
    · intro _; linarith
    · intro _; rfl

/-- An endpoint of one segment lying on the other (zero point-to-segment
distance) makes do_segments_intersect true, through the collinear special
cases. -/
theorem intersect_of_endpoint_psd_zero (s1 s2 : (ℝ × ℝ) × (ℝ × ℝ))
    (h1 : s1.1 ≠ s1.2) (h2 : s2.1 ≠ s2.2) :
    (point_segment_distance s1.1 s2 = 0 ∨ point_segment_distance s1.2 s2 = 0 ∨
     point_segment_distance s2.1 s1 = 0 ∨ point_segment_distance s2.2 s1 = 0) →
    do_segments_intersect s1 s2 := by
  intro hcase
  unfold do_segments_intersect
  rcases hcase with hz | hz | hz | hz
  · obtain ⟨hval, hon⟩ := psd_eq_zero_mem s1.1 s2 h2 hz
    exact Or.inr (Or.inr (Or.inr (Or.inl ⟨(orientation_eq_zero_iff _ _ _).mpr hval, hon⟩)))
  · obtain ⟨hval, hon⟩ := psd_eq_zero_mem s1.2 s2 h2 hz
    exact Or.inr (Or.inr (Or.inr (Or.inr ⟨(orientation_eq_zero_iff _ _ _).mpr hval, hon⟩)))
  · obtain ⟨hval, hon⟩ := psd_eq_zero_mem s2.1 s1 h1 hz
    exact Or.inr (Or.inl ⟨(orientation_eq_zero_iff _ _ _).mpr hval, hon⟩)
  · obtain ⟨hval, hon⟩ := psd_eq_zero_mem s2.2 s1 h1 hz
    exact Or.inr (Or.inr (Or.inl ⟨(orientation_eq_zero_iff _ _ _).mpr hval, hon⟩))

/-- C8: for non-degenerate segments, segment_distance is zero exactly when
do_segments_intersect holds, and on non-intersecting segments it is the
minimum of the four endpoint-to-segment distances. -/
theorem C8_segment_distance_zero_iff (s1 s2 : (ℝ × ℝ) × (ℝ × ℝ))
    (h1 : s1.1 ≠ s1.2) (h2 : s2.1 ≠ s2.2) :
    (segment_distance s1 s2 = 0 ↔ do_segments_intersect s1 s2) ∧
    (¬ do_segments_intersect s1 s2 →
      segment_distance s1 s2 =
        min (min (min (point_segment_distance s1.1 s2) (point_segment_distance s1.2 s2))
              (point_segment_distance s2.1 s1))
          (point_segment_distance s2.2 s1)) := by
  refine ⟨⟨?_, ?_⟩, ?_⟩
  · intro hz
    by_contra hni
    rw [segment_distance, if_neg hni] at hz
    have hd1 := point_segment_distance_nonneg s1.1 s2
    have hd2 := point_segment_distance_nonneg s1.2 s2
    have hd3 := point_segment_distance_nonneg s2.1 s1
    have hd4 := point_segment_distance_nonneg s2.2 s1
    have hm1 : 0 ≤ min (point_segment_distance s1.1 s2) (point_segment_distance s1.2 s2) :=
      le_min hd1 hd2
    have hm2 : 0 ≤ min (min (point_segment_distance s1.1 s2) (point_segment_distance s1.2 s2))
        (point_segment_distance s2.1 s1) := le_min hm1 hd3
    apply hni
    apply intersect_of_endpoint_psd_zero s1 s2 h1 h2
    rcases min_eq_zero_cases hm2 hd4 hz with hz' | hz'
    · rcases min_eq_zero_cases hm1 hd3 hz' with hz'' | hz''
      · rcases min_eq_zero_cases hd1 hd2 hz'' with h | h
        · exact Or.inl h
        · exact Or.inr (Or.inl h)
      · exact Or.inr (Or.inr (Or.inl hz''))
    · exact Or.inr (Or.inr (Or.inr hz'))
  · intro hi
    rw [segment_distance, if_pos hi]
  · intro hni
    rw [segment_distance, if_neg hni]

/-- Witness for C8 at two concrete non-degenerate segments. -/
theorem C8_witness :
    (segA.1 ≠ segA.2 ∧ segB.1 ≠ segB.2) ∧
    ((segment_distance segA segB = 0 ↔ do_segments_intersect segA segB) ∧
     (¬ do_segments_intersect segA segB →
       segment_distance segA segB =
         min (min (min (point_segment_distance segA.1 segB)
                 (point_segment_distance segA.2 segB))
               (point_segment_distance segB.1 segA))
           (point_segment_distance segB.2 segA))) := by
  have hA : segA.1 ≠ segA.2 := by norm_num [segA, Prod.ext_iff]
  have hB : segB.1 ≠ segB.2 := by norm_num [segB, Prod.ext_iff]
  exact ⟨⟨hA, hB⟩, C8_segment_distance_zero_iff segA segB hA hB⟩

theorem sqrt_two_pos : (0 : ℝ) < Real.sqrt 2 := Real.sqrt_pos.mpr (by norm_num)

theorem gran_mono {g1 g2 : ℝ} (h : g1 ≤ g2) :
    g1 / Real.sqrt 2 ≤ g2 / Real.sqrt 2 :=
  div_le_div_of_nonneg_right h sqrt_two_pos.le

/-- Monotonicity of the window predicate for capsule shapes: a larger
granularity only shrinks the admissible region. -/
theorem within_window_antitone (alien : Alien) (window : ℝ × ℝ) {g1 g2 : ℝ}
    (hshape : ¬ alien.is_circle = true) (h12 : g1 ≤ g2)
    (h2 : is_alien_within_window alien window g2) :
    is_alien_within_window alien window g1 := by
  have hgr := gran_mono h12
  simp only [is_alien_within_window, if_neg hshape] at h2 ⊢
  by_cases hH : alien.get_shape = ShapeKind.Horizontal
  · simp only [if_pos hH] at h2 ⊢
    obtain ⟨a1, a2, a3, a4⟩ := h2
    refine ⟨fun h => a1 ?_, fun h => a2 ?_, fun h => a3 ?_, fun h => a4 ?_⟩ <;> linarith
  · simp only [if_neg hH] at h2 ⊢
    by_cases hV : alien.get_shape = ShapeKind.Vertical
    · simp only [if_pos hV] at h2 ⊢
      obtain ⟨a1, a2, a3, a4⟩ := h2
      refine ⟨fun h => a1 ?_, fun h => a2 ?_, fun h => a3 ?_, fun h => a4 ?_⟩ <;> linarith
    · simp only [if_neg hV] at h2 ⊢

/-- C7 (amended): for a fixed agent pose in one of the two capsule
morphologies, a fixed wall list and window, and granularities g1 at most g2,
a cell blocked at g1 is still blocked at g2. (For the ball morphology the
claim fails: the source's bottom window check adds the margin with the wrong
sign, see the counterexample.) -/
theorem C7_inflation_monotone_capsule (alien : Alien) (window : ℝ × ℝ)
    (walls : List (ℝ × ℝ × ℝ × ℝ)) (g1 g2 : ℝ)
    (hshape : ¬ alien.is_circle = true) (h12 : g1 ≤ g2)
    (hb : blocked alien window walls g1) : blocked alien window walls g2 := by
  have hgr := gran_mono h12
  rcases hb with hwin | htouch
  · exact Or.inl fun h => hwin (within_window_antitone alien window hshape h12 h)
  · right
    simp only [does_alien_touch_wall, if_neg hshape] at htouch ⊢
    obtain ⟨w, hw, hle⟩ := htouch
    exact ⟨w, hw, by linarith⟩

/-- C7 counterexample: the ball alien at (100, 5) with radius 10 in a
200 by 200 window with no walls is blocked at granularity 7 (the bottom
window check `centroid.y - radius + gran <= 0` fires), yet free at the
larger granularity 8: increasing the granularity turned a blocked cell
free, because that check adds the margin instead of subtracting it. -/
theorem C7_counterexample :
    blocked ballAlien (200, 200) [] 7 ∧ ¬ blocked ballAlien (200, 200) [] 8 := by
  have h2 := sqrt_two_pos
  have hsq : Real.sqrt 2 ^ 2 = 2 := Real.sq_sqrt (by norm_num)
  have hcirc : ballAlien.is_circle = true := rfl
  have h75 : (7 : ℝ) / Real.sqrt 2 ≤ 5 := by
    rw [div_le_iff₀ h2]
    nlinarith [Real.sqrt_nonneg 2]
  have h85 : (5 : ℝ) < 8 / Real.sqrt 2 := by
    rw [lt_div_iff₀ h2]
    nlinarith [Real.sqrt_nonneg 2]
  have h88 : (8 : ℝ) / Real.sqrt 2 ≤ 8 := by
    rw [div_le_iff₀ h2]
    nlinarith [Real.sqrt_nonneg 2]
  constructor
  · left
    intro hwin
    simp only [is_alien_within_window, if_pos hcirc, ballAlien, Alien.get_centroid,
      Alien.get_width] at hwin
    obtain ⟨-, -, -, hB⟩ := hwin
    exact hB (by linarith)
  · intro hb
    rcases hb with hnw | ht
    · apply hnw
      simp only [is_alien_within_window, if_pos hcirc, ballAlien, Alien.get_centroid,
        Alien.get_width]
      refine ⟨fun h => ?_, fun h => ?_, fun h => ?_, fun h => ?_⟩ <;> linarith
    · simp only [does_alien_touch_wall, if_pos hcirc] at ht
      obtain ⟨w, hw, -⟩ := ht
      exact absurd hw (List.not_mem_nil w)

/-- Witness for the amended C7 at a concrete capsule input: the horizontal
capsule with its tail at x = -20 is blocked at granularity 1, and the
theorem yields that it stays blocked at granularity 2. -/
theorem C7_witness :
    (¬ horizAlien.is_circle = true) ∧ (1 : ℝ) ≤ 2 ∧
    blocked horizAlien (200, 200) [] 1 ∧ blocked horizAlien (200, 200) [] 2 := by
  have h2 := sqrt_two_pos
  have hgnn : (0 : ℝ) ≤ 1 / Real.sqrt 2 := by positivity
  have hshape : ¬ horizAlien.is_circle = true := by simp [horizAlien, Alien.is_circle]
  have hb1 : blocked horizAlien (200, 200) [] 1 := by
    left
    intro hwin
    simp only [is_alien_within_window, if_neg hshape, horizAlien, Alien.get_shape,
      Alien.get_head_and_tail, Alien.get_centroid, Alien.get_width, if_pos rfl] at hwin
    obtain ⟨hL, -, -, -⟩ := hwin
    exact hL (by norm_num; linarith)
  exact ⟨hshape, by norm_num, hb1,
    C7_inflation_monotone_capsule horizAlien (200, 200) [] 1 2 hshape (by norm_num) hb1⟩

theorem gridWrite_dims {g g' : Grid} {i j k : ℕ} {c : Char}
    (h : gridWrite g i j k c = some g') :
    g'.dim0 = g.dim0 ∧ g'.dim1 = g.dim1 ∧ g'.dim2 = g.dim2 := by
  unfold gridWrite at h
  split_ifs at h
  · cases h; exact ⟨rfl, rfl, rfl⟩

theorem gridWrite_data {g g' : Grid} {i j k : ℕ} {c : Char}
    (h : gridWrite g i j k c = some g') :
    ∀ a b d, g'.data a b d = if a = i ∧ b = j ∧ d = k then c else g.data a b d := by
  unfold gridWrite at h
  split_ifs at h
  · cases h; intro a b d; rfl

theorem gridWrite_isSome {g : Grid} {i j k : ℕ} {c : Char}
    (h : i < g.dim0 ∧ j < g.dim1 ∧ k < g.dim2) :
    gridWrite g i j k c = some { g with
      data := fun i' j' k' => if i' = i ∧ j' = j ∧ k' = k then c else g.data i' j' k' } := by
  unfold gridWrite
  rw [if_pos h]

/-- The classification fold aborts exactly when some written triple is out
of the allocated range. -/
theorem foldWrites_none_iff (f : ℕ × ℕ × ℕ → Char) :
    ∀ (l : List (ℕ × ℕ × ℕ)) (g : Grid),
      (l.foldlM (fun gr t => gridWrite gr t.1 t.2.1 t.2.2 (f t)) g = none ↔
        ∃ t ∈ l, ¬(t.1 < g.dim0 ∧ t.2.1 < g.dim1 ∧ t.2.2 < g.dim2)) := by
  intro l
  induction l with
  | nil => intro g; simp [List.foldlM]
  | cons t ts ih =>
    intro g
    rw [List.foldlM_cons]
    by_cases hb : t.1 < g.dim0 ∧ t.2.1 < g.dim1 ∧ t.2.2 < g.dim2
    · rw [gridWrite_isSome hb]
      simp only [Option.bind_eq_bind, Option.some_bind]
      rw [ih]
      constructor
      · rintro ⟨u, hu, hub⟩
        exact ⟨u, List.mem_cons_of_mem t hu, hub⟩
      · rintro ⟨u, hu, hub⟩
        rcases List.mem_cons.mp hu with rfl | hu'
        · exact absurd hb hub
        · exact ⟨u, hu', hub⟩
    · have : gridWrite g t.1 t.2.1 t.2.2 (f t) = none := by
        unfold gridWrite
        rw [if_neg hb]
      rw [this]
      simp only [Option.bind_eq_bind, Option.none_bind]
      constructor
      · intro _
        exact ⟨t, List.mem_cons_self t ts, hb⟩
      · intro _
        trivial

theorem foldWrites_dims (f : ℕ × ℕ × ℕ → Char) :
    ∀ (l : List (ℕ × ℕ × ℕ)) (g gfin : Grid),
      l.foldlM (fun gr t => gridWrite gr t.1 t.2.1 t.2.2 (f t)) g = some gfin →
      gfin.dim0 = g.dim0 ∧ gfin.dim1 = g.dim1 ∧ gfin.dim2 = g.dim2 := by
  intro l
  induction l with
  | nil => intro g gfin h; simp [List.foldlM] at h; rw [← h]; exact ⟨rfl, rfl, rfl⟩
  | cons t ts ih =>
    intro g gfin h
    rw [List.foldlM_cons] at h
    cases hw : gridWrite g t.1 t.2.1 t.2.2 (f t) with
    | none => rw [hw] at h; simp at h
    | some g' =>
      rw [hw] at h
      simp only [Option.bind_eq_bind, Option.some_bind] at h
      obtain ⟨d0, d1, d2⟩ := gridWrite_dims hw
      obtain ⟨e0, e1, e2⟩ := ih g' gfin h
      exact ⟨e0.trans d0, e1.trans d1, e2.trans d2⟩

/-- After a successful classification fold, a cell holds the classification
character when its triple was written, and the initial character
otherwise. -/
theorem foldWrites_data (f : ℕ × ℕ × ℕ → Char) :
    ∀ (l : List (ℕ × ℕ × ℕ)) (g gfin : Grid),
      l.foldlM (fun gr t => gridWrite gr t.1 t.2.1 t.2.2 (f t)) g = some gfin →
      ∀ i j k, gfin.data i j k = if (i, j, k) ∈ l then f (i, j, k) else g.data i j k := by
  intro l
  induction l with
  | nil =>
    intro g gfin h i j k
    simp [List.foldlM] at h
    rw [← h]
    simp
  | cons t ts ih =>
    intro g gfin h i j k
    rw [List.foldlM_cons] at h
    cases hw : gridWrite g t.1 t.2.1 t.2.2 (f t) with
    | none => rw [hw] at h; simp at h
    | some g' =>
      rw [hw] at h
      simp only [Option.bind_eq_bind, Option.some_bind] at h
      have hdat := gridWrite_data hw i j k
      rw [ih g' gfin h i j k]
      by_cases hmem : (i, j, k) ∈ ts
      · rw [if_pos hmem, if_pos (List.mem_cons_of_mem t hmem)]
      · rw [if_neg hmem, hdat]
        by_cases heq : i = t.1 ∧ j = t.2.1 ∧ k = t.2.2
        · have : (i, j, k) = t := by
            obtain ⟨h1, h2, h3⟩ := heq
            cases t with
            | mk t1 t2 =>
              cases t2 with
              | mk t2 t3 => simp_all
          rw [if_pos heq, if_pos (by rw [this]; exact List.mem_cons_self t ts)]
          rw [this]
        · have : (i, j, k) ≠ t := by
            intro hc
            apply heq
            rw [← hc]
            exact ⟨rfl, rfl, rfl⟩
          rw [if_neg heq, if_neg (by
            intro hc
            rcases List.mem_cons.mp hc with h' | h'
            · exact this h'
            · exact hmem h')]

theorem mem_writeTriples {nx ny m x y : ℕ} :
    (m, x, y) ∈ writeTriples nx ny ↔ m < 3 ∧ x < nx ∧ y < ny := by
  unfold writeTriples
  simp only [List.mem_flatMap, List.mem_range, List.mem_cons, List.not_mem_nil, or_false]
  constructor
  · rintro ⟨x', hx', y', hy', h | h | h⟩ <;>
      · simp only [Prod.mk.injEq] at h
        obtain ⟨hm, hx2, hy2⟩ := h
        subst hm; subst hx2; subst hy2
        exact ⟨by omega, hx', hy'⟩
  · rintro ⟨hm, hx, hy⟩
    refine ⟨x, hx, y, hy, ?_⟩
    interval_cases m
    · exact Or.inl rfl
    · exact Or.inr (Or.inl rfl)
    · exact Or.inr (Or.inr rfl)

theorem shapeIdx_lt (s : ShapeKind) : shapeIdx s < 3 := by
  cases s <;> simp [shapeIdx]

/-- The classification fold succeeds when every written triple is in
range. -/
theorem buildLoop_isSome (alien : Alien) (goals : List (ℝ × ℝ × ℝ))
    (walls : List (ℝ × ℝ × ℝ × ℝ)) (window : ℕ × ℕ) (granularity nx ny : ℕ)
    (h : ∀ t ∈ writeTriples nx ny, t.1 < nx ∧ t.2.1 < ny ∧ t.2.2 < 3) :
    ∃ g0, buildLoop alien goals walls window granularity nx ny = some g0 := by
  unfold buildLoop
  cases hfold : (writeTriples nx ny).foldlM
      (fun g t =>
        gridWrite g t.1 t.2.1 t.2.2
          (classifyChar alien goals walls window granularity t.1 t.2.1 t.2.2))
      ⟨nx, ny, 3, fun _ _ _ => '%'⟩ with
  | none =>
    obtain ⟨t, ht, htb⟩ := (foldWrites_none_iff _ _ _).mp hfold
    exact absurd (h t ht) htb
  | some g => exact ⟨g, rfl⟩

/-- Case analysis on the classification character: each label is stored
exactly under its branch condition. -/
theorem classifyChar_spec (alien : Alien) (goals : List (ℝ × ℝ × ℝ))
    (walls : List (ℝ × ℝ × ℝ × ℝ)) (window : ℕ × ℕ) (granularity m x y : ℕ) :
    (classifyChar alien goals walls window granularity m x y = '%' ↔
      wallCond alien walls window granularity m x y) ∧
    (classifyChar alien goals walls window granularity m x y = '.' ↔
      (¬ wallCond alien walls window granularity m x y ∧
        goalCond alien goals granularity m x y)) ∧
    (classifyChar alien goals walls window granularity m x y = ' ' ↔
      (¬ wallCond alien walls window granularity m x y ∧
        ¬ goalCond alien goals granularity m x y)) := by
  unfold classifyChar
  by_cases h1 : wallCond alien walls window granularity m x y
  · rw [if_pos h1]
    refine ⟨⟨fun _ => h1, fun _ => rfl⟩, ⟨fun hc => absurd hc (by decide), ?_⟩,
      ⟨fun hc => absurd hc (by decide), ?_⟩⟩
    · rintro ⟨hn, -⟩; exact absurd h1 hn
    · rintro ⟨hn, -⟩; exact absurd h1 hn
  · rw [if_neg h1]
    by_cases h2 : goalCond alien goals granularity m x y
    · rw [if_pos h2]
      refine ⟨⟨fun hc => absurd hc (by decide), fun hw => absurd hw h1⟩,
        ⟨fun _ => ⟨h1, h2⟩, fun _ => rfl⟩,
        ⟨fun hc => absurd hc (by decide), ?_⟩⟩
      rintro ⟨-, hn⟩; exact absurd h2 hn
    · rw [if_neg h2]
      refine ⟨⟨fun hc => absurd hc (by decide), fun hw => absurd hw h1⟩,
        ⟨fun hc => absurd hc (by decide), ?_⟩,
        ⟨fun _ => ⟨h1, h2⟩, fun _ => rfl⟩⟩
      rintro ⟨-, hg2⟩; exact absurd hg2 h2

/-- C2: the shape-transposition bug evaluated at a failing input. With a
12 by 12 window and granularity 2 the grid is allocated with numpy shape
(7, 7, 3), yet the classification loop performs the write maze[0][0][3],
whose last index is out of range for the third dimension of size 3, so the
build aborts on an out-of-range access and produces no grid — for every
alien, goal list and wall list. -/
theorem C2_out_of_range_access (alien : Alien) (goals : List (ℝ × ℝ × ℝ))
    (walls : List (ℝ × ℝ × ℝ × ℝ)) :
    (0, 0, 3) ∈ writeTriples 7 7 ∧ ¬((0 : ℕ) < 7 ∧ (0 : ℕ) < 7 ∧ (3 : ℕ) < 3) ∧
    transformToMaze alien goals walls (12, 12) 2 = none := by
  refine ⟨mem_writeTriples.mpr (by omega), by omega, ?_⟩
  have hnone : buildLoop alien goals walls (12, 12) 2 (((12, 12) : ℕ × ℕ).1 / 2 + 1)
      (((12, 12) : ℕ × ℕ).2 / 2 + 1) = none := by
    unfold buildLoop
    rw [foldWrites_none_iff]
    exact ⟨(0, 0, 3), mem_writeTriples.mpr (by decide), by decide⟩
  unfold transformToMaze
  simp only
  rw [hnone]
  rfl

/-- C1 counterexample: at the 10 by 10 window with granularity 2 the claim
that a labeled grid is built for every window fails: the shape-transposed
allocation makes the classification loop abort on an out-of-range access,
so no grid at all is produced. -/
theorem C1_counterexample : transformToMaze ballAlien [] [] (10, 10) 2 = none := by
  have hnone : buildLoop ballAlien [] [] (10, 10) 2 (((10, 10) : ℕ × ℕ).1 / 2 + 1)
      (((10, 10) : ℕ × ℕ).2 / 2 + 1) = none := by
    unfold buildLoop
    rw [foldWrites_none_iff]
    exact ⟨(0, 0, 3), mem_writeTriples.mpr (by decide), by decide⟩
  unfold transformToMaze
  simp only
  rw [hnone]
  rfl

/-- When the classification loop has succeeded and the start indices are
within the allocated shape, transformToMaze returns the classified grid
with exactly the start cell overwritten by the Start mark. -/
theorem transformToMaze_some (alien : Alien) (goals : List (ℝ × ℝ × ℝ))
    (walls : List (ℝ × ℝ × ℝ × ℝ)) (window : ℕ × ℕ) (granularity : ℕ) (g0 : Grid)
    (hg0 : buildLoop alien goals walls window granularity
      (window.1 / granularity + 1) (window.2 / granularity + 1) = some g0)
    (hnn1 : 0 ≤ (configToIdx alien.centroid granularity).1)
    (hnn2 : 0 ≤ (configToIdx alien.centroid granularity).2)
    (hb : shapeIdx alien.shape < g0.dim0 ∧
      (configToIdx alien.centroid granularity).1.toNat < g0.dim1 ∧
      (configToIdx alien.centroid granularity).2.toNat < g0.dim2) :
    ∃ grid, transformToMaze alien goals walls window granularity = some grid ∧
      grid.dim0 = g0.dim0 ∧ grid.dim1 = g0.dim1 ∧ grid.dim2 = g0.dim2 ∧
      grid.data (shapeIdx alien.shape) (configToIdx alien.centroid granularity).1.toNat
        (configToIdx alien.centroid granularity).2.toNat = 'P' ∧
      ∀ m x y, (m, x, y) ≠ (shapeIdx alien.shape,
          (configToIdx alien.centroid granularity).1.toNat,
          (configToIdx alien.centroid granularity).2.toNat) →
        grid.data m x y = g0.data m x y := by
  cases hw : gridWrite g0 (shapeIdx alien.shape)
      (configToIdx alien.centroid granularity).1.toNat
      (configToIdx alien.centroid granularity).2.toNat 'P' with
  | none =>
    rw [gridWrite_isSome hb] at hw
    exact absurd hw (by simp)
  | some gF =>
    have hdims := gridWrite_dims hw
    have hdata := gridWrite_data hw
    refine ⟨gF, ?_, hdims.1, hdims.2.1, hdims.2.2, ?_, ?_⟩
    · unfold transformToMaze
      simp only
      rw [hg0]
      simp only [Option.some_bind]
      unfold gridWriteZ
      rw [if_pos ⟨hnn1, hnn2⟩]
      exact hw
    · rw [hdata]
      simp
    · intro m x y hne
      rw [hdata]
      rw [if_neg]
      intro hc
      obtain ⟨h1, h2, h3⟩ := hc
      subst h1; subst h2; subst h3
      exact hne rfl

/-- C1 (amended): when the grid extents num_x and num_y both equal 3 — the
only extents the shape-transposed allocation admits in full — and the start
indices are in range, transformToMaze builds the grid and every in-range
triple (morphology, x, y) other than the start cell is labeled Wall exactly
when the repositioned agent is not within the window or touches a wall,
otherwise Goal exactly when it touches a goal, and otherwise Free, the grid
read at maze[morphology][x][y]; the start cell instead holds the Start
mark. For other window extents the build aborts on an out-of-range
access. -/
theorem C1_grid_labels (alien : Alien) (goals : List (ℝ × ℝ × ℝ))
    (walls : List (ℝ × ℝ × ℝ × ℝ)) (window : ℕ × ℕ) (granularity : ℕ)
    (hnx : window.1 / granularity + 1 = 3) (hny : window.2 / granularity + 1 = 3)
    (hs1 : 0 ≤ (configToIdx alien.centroid granularity).1)
    (hs1' : (configToIdx alien.centroid granularity).1.toNat < 3)
    (hs2 : 0 ≤ (configToIdx alien.centroid granularity).2)
    (hs2' : (configToIdx alien.centroid granularity).2.toNat < 3) :
    ∃ grid, transformToMaze alien goals walls window granularity = some grid ∧
      grid.dim0 = 3 ∧ grid.dim1 = 3 ∧ grid.dim2 = 3 ∧
      grid.data (shapeIdx alien.shape) (configToIdx alien.centroid granularity).1.toNat
        (configToIdx alien.centroid granularity).2.toNat = 'P' ∧
      ∀ m x y, m < 3 → x < 3 → y < 3 →
        (m, x, y) ≠ (shapeIdx alien.shape,
          (configToIdx alien.centroid granularity).1.toNat,
          (configToIdx alien.centroid granularity).2.toNat) →
        ((grid.data m x y = '%' ↔ wallCond alien walls window granularity m x y) ∧
         (grid.data m x y = '.' ↔
           (¬ wallCond alien walls window granularity m x y ∧
             goalCond alien goals granularity m x y)) ∧
         (grid.data m x y = ' ' ↔
           (¬ wallCond alien walls window granularity m x y ∧
             ¬ goalCond alien goals granularity m x y))) := by
  obtain ⟨g0, hg0⟩ := buildLoop_isSome alien goals walls window granularity
    (window.1 / granularity + 1) (window.2 / granularity + 1) (by
      intro t ht
      obtain ⟨m, x, y⟩ := t
      rw [hnx, hny] at ht ⊢
      rw [mem_writeTriples] at ht
      exact ⟨ht.1, ht.2.1, ht.2.2⟩)
  have hdims : g0.dim0 = window.1 / granularity + 1 ∧
      g0.dim1 = window.2 / granularity + 1 ∧ g0.dim2 = 3 := by
    unfold buildLoop at hg0
    exact foldWrites_dims _ _ _ _ hg0
  obtain ⟨grid, htrans, hd0, hd1, hd2, hstart, hrest⟩ :=
    transformToMaze_some alien goals walls window granularity g0 hg0 hs1 hs2
      ⟨by rw [hdims.1, hnx]; exact shapeIdx_lt _,
       by rw [hdims.2.1, hny]; exact hs1',
       by rw [hdims.2.2]; exact hs2'⟩
  refine ⟨grid, htrans, by rw [hd0, hdims.1, hnx], by rw [hd1, hdims.2.1, hny],
    by rw [hd2, hdims.2.2], hstart, ?_⟩
  intro m x y hm hx hy hne
  have hdat : g0.data m x y = classifyChar alien goals walls window granularity m x y := by
    unfold buildLoop at hg0
    rw [foldWrites_data _ _ _ _ hg0 m x y, if_pos]
    rw [mem_writeTriples, hnx, hny]
    exact ⟨hm, hx, hy⟩
  rw [hrest m x y hne, hdat]
  exact classifyChar_spec alien goals walls window granularity m x y

theorem startAlien_idx : configToIdx startAlien.centroid 1 = (1, 1) := by
  unfold configToIdx startAlien
  norm_num

/-- Witness for the amended C1 at a concrete completing input. -/
theorem C1_witness :
    ∃ grid, transformToMaze startAlien [] [] (2, 2) 1 = some grid ∧
      grid.dim0 = 3 ∧ grid.dim1 = 3 ∧ grid.dim2 = 3 ∧
      grid.data (shapeIdx startAlien.shape) (configToIdx startAlien.centroid 1).1.toNat
        (configToIdx startAlien.centroid 1).2.toNat = 'P' := by
  obtain ⟨grid, h1, h2, h3, h4, h5, -⟩ :=
    C1_grid_labels startAlien [] [] (2, 2) 1 (by norm_num) (by norm_num)
      (by rw [startAlien_idx]; norm_num) (by rw [startAlien_idx]; norm_num)
      (by rw [startAlien_idx]; norm_num) (by rw [startAlien_idx]; norm_num)
  exact ⟨grid, h1, h2, h3, h4, h5⟩

/-- C10: once the full grid has been built (the classification loop
succeeded) and transformToMaze returned a grid, that grid differs from the
classified grid in exactly one cell: the cell at the configToIdx indices of
the agent's initial configuration, in the layer of the agent's initial
morphology, holds the Start mark regardless of its classification label,
and every other cell keeps its classification label. -/
theorem C10_start_overwrite (alien : Alien) (goals : List (ℝ × ℝ × ℝ))
    (walls : List (ℝ × ℝ × ℝ × ℝ)) (window : ℕ × ℕ) (granularity : ℕ)
    (g0 grid : Grid)
    (hbuild : buildLoop alien goals walls window granularity
      (window.1 / granularity + 1) (window.2 / granularity + 1) = some g0)
    (hdone : transformToMaze alien goals walls window granularity = some grid) :
    grid.data (shapeIdx alien.shape) (configToIdx alien.centroid granularity).1.toNat
      (configToIdx alien.centroid granularity).2.toNat = 'P' ∧
    ∀ m x y, (m, x, y) ≠ (shapeIdx alien.shape,
        (configToIdx alien.centroid granularity).1.toNat,
        (configToIdx alien.centroid granularity).2.toNat) →
      grid.data m x y = g0.data m x y := by
  unfold transformToMaze at hdone
  simp only at hdone
  rw [hbuild] at hdone
  simp only [Option.some_bind] at hdone
  unfold gridWriteZ at hdone
  split_ifs at hdone with hnn
  · have hdata := gridWrite_data hdone
    constructor
    · rw [hdata]
      simp
    · intro m x y hne
      rw [hdata, if_neg]
      intro hc
      obtain ⟨h1, h2, h3⟩ := hc
      subst h1; subst h2; subst h3
      exact hne rfl

/-- Witness for C10 at a concrete completing input. -/
theorem C10_witness :
    ∃ g0 grid,
      buildLoop startAlien [] [] (2, 2) 1 (((2, 2) : ℕ × ℕ).1 / 1 + 1)
        (((2, 2) : ℕ × ℕ).2 / 1 + 1) = some g0 ∧
      transformToMaze startAlien [] [] (2, 2) 1 = some grid ∧
      grid.data (shapeIdx startAlien.shape) (configToIdx startAlien.centroid 1).1.toNat
        (configToIdx startAlien.centroid 1).2.toNat = 'P' ∧
      ∀ m x y, (m, x, y) ≠ (shapeIdx startAlien.shape,
          (configToIdx startAlien.centroid 1).1.toNat,
          (configToIdx startAlien.centroid 1).2.toNat) →
        grid.data m x y = g0.data m x y := by
  obtain ⟨g0, hg0⟩ := buildLoop_isSome startAlien [] [] (2, 2) 1
    (((2, 2) : ℕ × ℕ).1 / 1 + 1) (((2, 2) : ℕ × ℕ).2 / 1 + 1) (by
      intro t ht
      obtain ⟨m, x, y⟩ := t
      rw [mem_writeTriples] at ht
      exact ⟨ht.1, ht.2.1, ht.2.2⟩)
  have hdims : g0.dim0 = ((2, 2) : ℕ × ℕ).1 / 1 + 1 ∧
      g0.dim1 = ((2, 2) : ℕ × ℕ).2 / 1 + 1 ∧ g0.dim2 = 3 := by
    unfold buildLoop at hg0
    exact foldWrites_dims _ _ _ _ hg0
  obtain ⟨grid, htrans, -, -, -, -, -⟩ :=
    transformToMaze_some startAlien [] [] (2, 2) 1 g0 hg0
      (by rw [startAlien_idx]; norm_num) (by rw [startAlien_idx]; norm_num)
      (by
        rw [startAlien_idx, hdims.1, hdims.2.1, hdims.2.2]
        exact ⟨by decide, by decide, by decide⟩)
  have hmain := C10_start_overwrite startAlien [] [] (2, 2) 1 g0 grid hg0 htrans
  exact ⟨g0, grid, hg0, htrans, hmain.1, hmain.2⟩

theorem getD_sound {α : Type} (l : List (List α)) (u : ℕ) (p : α)
    (hp : p ∈ l.getD u []) : ∃ e ∈ l, p ∈ e := by
  rcases lt_or_ge u l.length with hu | hu
  · rw [List.getD_eq_getElem l [] hu] at hp
    exact ⟨l[u], List.getElem_mem hu, hp⟩
  · rw [List.getD_eq_default] at hp
    · cases hp
    · exact hu

theorem popMin_eq_none {l : List MS} : popMin l = none ↔ l = [] := by
  cases l with
  | nil => simp [popMin]
  | cons x xs =>
    simp only [popMin]
    constructor
    · intro h
      exfalso
      cases hx : popMin xs with
      | none => simp [hx] at h
      | some p =>
        obtain ⟨m, rest⟩ := p
        simp only [hx] at h
        by_cases hle : x.dist ≤ m.dist <;> simp [hle] at h
    · intro h; cases h

theorem popMin_perm {l : List MS} {st : MS} {rest : List MS}
    (h : popMin l = some (st, rest)) : l.Perm (st :: rest) := by
  induction l generalizing st rest with
  | nil => cases h
  | cons x xs ih =>
    cases hx : popMin xs with
    | none =>
      have hxs : xs = [] := popMin_eq_none.mp hx
      subst hxs
      simp only [popMin] at h
      cases h
      exact List.Perm.refl _
    | some p =>
      obtain ⟨m, r2⟩ := p
      simp only [popMin, hx] at h
      by_cases hle : x.dist ≤ m.dist
      · rw [if_pos hle] at h
        cases h
        exact List.Perm.refl _
      · rw [if_neg hle] at h
        cases h
        exact List.Perm.trans (List.Perm.cons x (ih hx)) (List.Perm.swap _ x _)

theorem popMin_min {l : List MS} {st : MS} {rest : List MS}
    (h : popMin l = some (st, rest)) : ∀ s ∈ l, st.dist ≤ s.dist := by
  induction l generalizing st rest with
  | nil => cases h
  | cons x xs ih =>
    cases hx : popMin xs with
    | none =>
      have hxs : xs = [] := popMin_eq_none.mp hx
      subst hxs
      simp only [popMin] at h
      cases h
      intro s hs
      rcases List.mem_singleton.mp hs with rfl
      exact le_refl _
    | some p =>
      obtain ⟨m, r2⟩ := p
      simp only [popMin, hx] at h
      by_cases hle : x.dist ≤ m.dist
      · rw [if_pos hle] at h
        cases h
        intro s hs
        rcases List.mem_cons.mp hs with rfl | hs'
        · exact le_refl _
        · exact le_trans hle (ih hx s hs')
      · rw [if_neg hle] at h
        cases h
        intro s hs
        rcases List.mem_cons.mp hs with rfl | hs'
        · exact le_of_not_le hle
        · exact ih hx s hs'

/-- Inversion of a continuing step: the body popped the least state, the
exit condition did not hold, and the resulting configuration's fields are
the body's updates. -/
theorem astarStep_next_inv (P : SProblem) {c c2 : Cfg} (h : astarStep P c = .next c2) :
    ∃ st rest, popMin c.frontier = some (st, rest) ∧
      ¬(c.goal_reached = true ∧ P.isGoal st.node = true) ∧
      c2.goal_reached = (if P.isGoal st.node then true else c.goal_reached) ∧
      c2.goal = (if P.isGoal st.node then some st else c.goal) ∧
      c2.callLog = c.callLog ++ [st.node] ∧
      (c2.frontier, c2.visited) =
        relaxList st.node (getNeighbors P st)
          ((if P.isGoal st.node then rest ++ [st] else rest), c.visited) := by
  unfold astarStep at h
  split at h
  · split at h <;> cases h
  · rename_i st rest hpop
    split at h
    · split at h
      · cases h
      · split at h <;> cases h
    · rename_i hcond
      cases h
      exact ⟨st, rest, hpop, hcond, rfl, rfl, rfl, rfl⟩

/-- Inversion of a terminating step: every way the loop can be left. -/
theorem astarStep_done_inv (P : SProblem) {c : Cfg} {r : AstarOutcome}
    (h : astarStep P c = .done r) :
    (popMin c.frontier = none ∧
      ((c.goal_reached = true ∧ r = .err) ∨ (c.goal_reached = false ∧ r = .noPath))) ∨
    (∃ st rest, popMin c.frontier = some (st, rest) ∧ c.goal_reached = true ∧
      P.isGoal st.node = true ∧
      ((c.goal = none ∧ r = .err) ∨
       (∃ g, c.goal = some g ∧
         ((backtrack c.visited g = none ∧ r = .err) ∨
          (∃ p, backtrack c.visited g = some p ∧ r = .path p))))) := by
  unfold astarStep at h
  split at h
  · rename_i hpop
    left
    refine ⟨hpop, ?_⟩
    split at h
    · rename_i hgr
      cases h
      exact Or.inl ⟨by simpa using hgr, rfl⟩
    · rename_i hgr
      cases h
      exact Or.inr ⟨by simpa using hgr, rfl⟩
  · rename_i st rest hpop
    split at h
    · rename_i hcond
      right
      refine ⟨st, rest, hpop, hcond.1, hcond.2, ?_⟩
      split at h
      · rename_i hgoal
        cases h
        exact Or.inl ⟨hgoal, rfl⟩
      · rename_i g hgoal
        refine Or.inr ⟨g, hgoal, ?_⟩
        split at h
        · rename_i hbt
          cases h
          exact Or.inl ⟨hbt, rfl⟩
        · rename_i p hbt
          cases h
          exact Or.inr ⟨p, hbt, rfl⟩
    · cases h

theorem backtrackAux_append (v : List (ℕ × Option ℕ × ℕ)) :
    ∀ (fuel node : ℕ) (acc l : List ℕ), backtrackAux v fuel node acc = some l →
      ∃ pre, l = pre ++ node :: acc := by
  intro fuel
  induction fuel with
  | zero => intro node acc l h; cases h
  | succ f ih =>
    intro node acc l h
    unfold backtrackAux at h
    cases hl : vlookup v node with
    | none => rw [hl] at h; cases h
    | some val =>
      obtain ⟨par, d⟩ := val
      rw [hl] at h
      cases par with
      | none =>
        cases h
        exact ⟨[], rfl⟩
      | some q =>
        obtain ⟨pre, hpre⟩ := ih q (node :: acc) l h
        exact ⟨pre ++ [q], by rw [hpre]; simp⟩

theorem backtrack_getLast {v : List (ℕ × Option ℕ × ℕ)} {s : MS} {l : List ℕ}
    (h : backtrack v s = some l) : l.getLast? = some s.node := by
  obtain ⟨pre, hpre⟩ := backtrackAux_append v (s.dist + 1) s.node [] l h
  rw [hpre]
  simp

/-- Once a goal has been recorded, every further step keeps the flag and the
recorded goal (the loop only executes its body on non-goal tops). -/
theorem astarStep_goal_stable (P : SProblem) {c c2 : Cfg}
    (hGR : c.goal_reached = true) (h : astarStep P c = .next c2) :
    c2.goal_reached = true ∧ c2.goal = c.goal := by
  obtain ⟨st, rest, hpop, hcond, hgr2, hgoal2, -, -⟩ := astarStep_next_inv P h
  have hng : P.isGoal st.node ≠ true := fun hg => hcond ⟨hGR, hg⟩
  rw [hgr2, hgoal2, if_neg hng, if_neg hng]
  exact ⟨hGR, rfl⟩

/-- Any path the loop eventually returns after the goal was recorded is the
reconstructed path to that recorded goal. -/
theorem astarLoop_path_endpoint (P : SProblem) :
    ∀ (n : ℕ) (c : Cfg) (g : MS) (p : List ℕ), c.goal_reached = true →
      c.goal = some g → astarLoop P n c = some (.path p) →
      p.getLast? = some g.node := by
  intro n
  induction n with
  | zero => intro c g p _ _ h; cases h
  | succ f ih =>
    intro c g p hGR hgoal h
    unfold astarLoop at h
    cases hstep : astarStep P c with
    | done r =>
      rw [hstep] at h
      cases h
      rcases astarStep_done_inv P hstep with ⟨-, hcase⟩ | ⟨st, rest, -, -, -, hcase⟩
      · rcases hcase with ⟨-, hr⟩ | ⟨-, hr⟩ <;> cases hr
      · rcases hcase with ⟨-, hr⟩ | ⟨g', hg', hcase2⟩
        · cases hr
        · rcases hcase2 with ⟨-, hr⟩ | ⟨p', hbt, hr⟩
          · cases hr
          · cases hr
            rw [hgoal] at hg'
            cases hg'
            exact backtrack_getLast hbt
    | next c2 =>
      rw [hstep] at h
      obtain ⟨hGR2, hgoal2⟩ := astarStep_goal_stable P hGR hstep
      exact ih c2 g p hGR2 (hgoal2.trans hgoal) h

/-- C4 (amended): astar performs no stale-entry check on pop. Whenever the
loop body runs (goal_reached still false and a nonempty frontier), the
popped least entry is expanded unconditionally — get_neighbors is called on
it, its cell joining the interaction log — even when its accumulated cost no
longer matches the visited map's best known cost; its neighbors are then
processed by the usual unseen-or-improving rules. -/
theorem C4_no_stale_discard (P : SProblem) (c : Cfg) (st : MS) (rest : List MS)
    (hpop : popMin c.frontier = some (st, rest))
    (hGR : c.goal_reached = false)
    (hstale : ∃ pv dv, vlookup c.visited st.node = some (pv, dv) ∧ dv ≠ st.dist) :
    ∃ c2, astarStep P c = .next c2 ∧ c2.callLog = c.callLog ++ [st.node] ∧
      (c2.frontier, c2.visited) =
        relaxList st.node (getNeighbors P st)
          ((if P.isGoal st.node then rest ++ [st] else rest), c.visited) := by
  unfold astarStep
  rw [hpop, hGR]
  rw [if_neg (by simp)]
  exact ⟨_, rfl, rfl, rfl⟩

/-- Witness for the amended C4: in the concrete run on P4 the stale entry
(cell 1, cost 10) is popped while the visited map records cost 2, and the
step expands it. -/
theorem C4_witness :
    ∃ c2, astarStep P4 cfg3val = .next c2 ∧ c2.callLog = cfg3val.callLog ++ [1] ∧
      (c2.frontier, c2.visited) =
        relaxList (1 : ℕ) (getNeighbors P4 ⟨1, 10⟩)
          ((if P4.isGoal 1 then [⟨3, 22⟩] ++ [⟨1, 10⟩] else [⟨3, 22⟩]), cfg3val.visited) :=
  C4_no_stale_discard P4 cfg3val ⟨1, 10⟩ [⟨3, 22⟩] (by decide) (by decide)
    ⟨some 2, 2, by decide, by decide⟩

/-- C4 counterexample: in the run of astar on P4 the configuration after
three iterations pops the stale entry (cell 1, cost 10) — the visited map
records best cost 2 for cell 1 — and the step does not discard it: its
neighbors are generated (the get_neighbors log grows by its cell), refuting
the claim that such an entry is discarded without being expanded. -/
theorem C4_counterexample :
    loopIter P4 3 (initCfg P4) = .next cfg3val ∧
    popMin cfg3val.frontier = some (⟨1, 10⟩, [⟨3, 22⟩]) ∧
    vlookup cfg3val.visited 1 = some (some 2, 2) ∧ (2 : ℕ) ≠ 10 ∧
    astarStep P4 cfg3val =
      .next ⟨[⟨3, 22⟩], cfg3val.visited, false, none, [0, 2, 1, 1]⟩ ∧
    ([0, 2, 1, 1] : List ℕ) ≠ cfg3val.callLog := by
  refine ⟨by decide, by decide, by decide, by decide, by decide, by decide⟩

/-- C5 (amended): when the popped state is a goal (goal_reached not yet
set), the search does not terminate at that pop: it records the goal,
re-pushes the state, and expands the state's neighbors like any other pop;
the loop then continues while the frontier's least entry is not a goal, and
whatever path is eventually returned is the reconstructed path to this
first popped goal. -/
theorem C5_goal_pop_continues (P : SProblem) (c : Cfg) (st : MS) (rest : List MS)
    (hpop : popMin c.frontier = some (st, rest))
    (hGR : c.goal_reached = false)
    (hgoal : P.isGoal st.node = true) :
    ∃ c2, astarStep P c = .next c2 ∧ c2.goal_reached = true ∧ c2.goal = some st ∧
      c2.callLog = c.callLog ++ [st.node] ∧
      ∀ n p, astarLoop P n c2 = some (.path p) → p.getLast? = some st.node := by
  unfold astarStep
  rw [hpop, hGR]
  rw [if_neg (by simp)]
  refine ⟨_, rfl, by simp [hgoal], by simp [hgoal], rfl, ?_⟩
  intro n p hrun
  exact astarLoop_path_endpoint P n _ st p (by simp [hgoal]) (by simp [hgoal]) hrun

/-- Witness for the amended C5: in the concrete run on P5 the goal state
(cell 1, cost 2) is popped first, the search continues, and the final path
ends at cell 1. -/
theorem C5_witness :
    ∃ c2, astarStep P5 cfg1five = .next c2 ∧ c2.goal_reached = true ∧
      c2.goal = some ⟨1, 2⟩ ∧ c2.callLog = cfg1five.callLog ++ [1] ∧
      ∀ n p, astarLoop P5 n c2 = some (.path p) → p.getLast? = some 1 :=
  C5_goal_pop_continues P5 cfg1five ⟨1, 2⟩ [⟨2, 2⟩] (by decide) (by decide) (by decide)

/-- C5 counterexample: in the run of astar on P5 the first pop of a goal
state (cell 1, cost 2, one iteration in) does not terminate the search: the
step continues (it is not a done step), the goal's own neighbors are
generated, and two iterations later the non-goal cell 2 is also expanded,
before the search finally returns the path to that first popped goal. -/
theorem C5_counterexample :
    loopIter P5 1 (initCfg P5) = .next cfg1five ∧
    popMin cfg1five.frontier = some (⟨1, 2⟩, [⟨2, 2⟩]) ∧
    P5.isGoal 1 = true ∧ cfg1five.goal_reached = false ∧
    astarStep P5 cfg1five =
      .next ⟨[⟨2, 2⟩, ⟨1, 2⟩, ⟨3, 3⟩],
        [(0, none, 0), (1, some 0, 2), (2, some 0, 2), (3, some 1, 3)],
        true, some ⟨1, 2⟩, [0, 1]⟩ ∧
    loopIter P5 3 (initCfg P5) = .next cfg3five ∧
    cfg3five.callLog = [0, 1, 2] ∧
    astar P5 10 = some (.path [0, 1]) := by
  refine ⟨by decide, by decide, by decide, by decide, by decide, by decide, by decide,
    by decide⟩

/-! ### Facts about the visited dictionary -/

theorem vlookup_mem {v : List (ℕ × Option ℕ × ℕ)} {n : ℕ} {val : Option ℕ × ℕ}
    (h : vlookup v n = some val) : (n, val) ∈ v := by
  induction v with
  | nil => cases h
  | cons e rest ih =>
    obtain ⟨k, w⟩ := e
    simp only [vlookup] at h
    by_cases hk : k = n
    · rw [if_pos hk] at h
      cases h
      subst hk
      exact List.mem_cons_self _ _
    · rw [if_neg hk] at h
      exact List.mem_cons_of_mem _ (ih h)

theorem vset_lookup_self (v : List (ℕ × Option ℕ × ℕ)) (n : ℕ) (val : Option ℕ × ℕ) :
    vlookup (vset v n val) n = some val := by
  induction v with
  | nil => simp [vset, vlookup]
  | cons e rest ih =>
    obtain ⟨k, w⟩ := e
    simp only [vset]
    by_cases hk : k = n
    · rw [if_pos hk]
      simp [vlookup]
    · rw [if_neg hk]
      simp only [vlookup, if_neg hk]
      exact ih

theorem vset_lookup_other (v : List (ℕ × Option ℕ × ℕ)) (n m : ℕ) (val : Option ℕ × ℕ)
    (h : m ≠ n) : vlookup (vset v n val) m = vlookup v m := by
  induction v with
  | nil => simp [vset, vlookup, Ne.symm h]
  | cons e rest ih =>
    obtain ⟨k, w⟩ := e
    simp only [vset]
    by_cases hk : k = n
    · rw [if_pos hk]
      subst hk
      simp only [vlookup, if_neg (fun hc : k = m => h hc.symm)]
    · rw [if_neg hk]
      simp only [vlookup]
      by_cases hkm : k = m
      · rw [if_pos hkm, if_pos hkm]
      · rw [if_neg hkm, if_neg hkm]
        exact ih

theorem vset_mem {v : List (ℕ × Option ℕ × ℕ)} {n : ℕ} {val : Option ℕ × ℕ}
    {e : ℕ × Option ℕ × ℕ} (he : e ∈ vset v n val) : e = (n, val) ∨ e ∈ v := by
  induction v with
  | nil => simpa [vset] using he
  | cons f rest ih =>
    obtain ⟨k, w⟩ := f
    simp only [vset] at he
    by_cases hk : k = n
    · rw [if_pos hk] at he
      rcases List.mem_cons.mp he with rfl | h'
      · exact Or.inl rfl
      · exact Or.inr (List.mem_cons_of_mem _ h')
    · rw [if_neg hk] at he
      rcases List.mem_cons.mp he with rfl | h'
      · exact Or.inr (List.mem_cons_self _ _)
      · rcases ih h' with h'' | h''
        · exact Or.inl h''
        · exact Or.inr (List.mem_cons_of_mem _ h'')

theorem vset_keys_of_some {v : List (ℕ × Option ℕ × ℕ)} {n : ℕ} {old : Option ℕ × ℕ}
    (h : vlookup v n = some old) (val : Option ℕ × ℕ) :
    (vset v n val).map Prod.fst = v.map Prod.fst := by
  induction v with
  | nil => cases h
  | cons f rest ih =>
    obtain ⟨k, w⟩ := f
    simp only [vlookup] at h
    simp only [vset]
    by_cases hk : k = n
    · rw [if_pos hk]
      subst hk
      simp
    · rw [if_neg hk] at h ⊢
      simp only [List.map_cons]
      rw [ih h]

theorem vset_keys_of_none {v : List (ℕ × Option ℕ × ℕ)} {n : ℕ}
    (h : vlookup v n = none) (val : Option ℕ × ℕ) :
    (vset v n val).map Prod.fst = v.map Prod.fst ++ [n] := by
  induction v with
  | nil => simp [vset]
  | cons f rest ih =>
    obtain ⟨k, w⟩ := f
    simp only [vlookup] at h
    by_cases hk : k = n
    · rw [if_pos hk] at h
      cases h
    · rw [if_neg hk] at h
      simp only [vset, if_neg hk, List.map_cons, List.cons_append]
      rw [ih h]

theorem vlookup_none_iff {v : List (ℕ × Option ℕ × ℕ)} {n : ℕ} :
    vlookup v n = none ↔ n ∉ v.map Prod.fst := by
  induction v with
  | nil => simp [vlookup]
  | cons f rest ih =>
    obtain ⟨k, w⟩ := f
    simp only [vlookup, List.map_cons, List.mem_cons]
    by_cases hk : k = n
    · rw [if_pos hk]
      simp [hk]
    · rw [if_neg hk]
      rw [ih]
      constructor
      · intro h hc
        rcases hc with hc | hc
        · exact hk hc.symm
        · exact h hc
      · intro h
        exact fun hc => h (Or.inr hc)

theorem vset_length_of_some {v : List (ℕ × Option ℕ × ℕ)} {n : ℕ} {old : Option ℕ × ℕ}
    (h : vlookup v n = some old) (val : Option ℕ × ℕ) :
    (vset v n val).length = v.length := by
  have := vset_keys_of_some h val
  have h1 : (vset v n val).length = ((vset v n val).map Prod.fst).length := by simp
  have h2 : v.length = (v.map Prod.fst).length := by simp
  rw [h1, h2, this]

theorem vset_length_of_none {v : List (ℕ × Option ℕ × ℕ)} {n : ℕ}
    (h : vlookup v n = none) (val : Option ℕ × ℕ) :
    (vset v n val).length = v.length + 1 := by
  have := vset_keys_of_none h val
  have h1 : (vset v n val).length = ((vset v n val).map Prod.fst).length := by simp
  have h2 : v.length = (v.map Prod.fst).length := by simp
  rw [h1, this, List.length_append, List.length_map]
  simp

theorem vset_sum_of_improve {v : List (ℕ × Option ℕ × ℕ)} {n : ℕ} {pv : Option ℕ}
    {dv : ℕ} (h : vlookup v n = some (pv, dv)) (val : Option ℕ × ℕ) (hlt : val.2 < dv) :
    ((vset v n val).map fun e => e.2.2).sum < (v.map fun e => e.2.2).sum := by
  induction v with
  | nil => cases h
  | cons f rest ih =>
    obtain ⟨k, w⟩ := f
    simp only [vlookup] at h
    simp only [vset]
    by_cases hk : k = n
    · rw [if_pos hk]
      rw [if_pos hk] at h
      cases h
      simp only [List.map_cons, List.sum_cons]
      omega
    · rw [if_neg hk]
      rw [if_neg hk] at h
      simp only [List.map_cons, List.sum_cons]
      have := ih h
      omega

theorem WF_init (P : SProblem) : WF P (initCfg P) := by
  refine ⟨⟨?_, ?_, ?_, ?_, ?_, ?_, ?_, ?_, ?_⟩, ?_, ?_⟩
  · simp [initCfg]
  · intro e he
    simp only [initCfg, List.mem_singleton] at he
    subst he
    exact P.hstart
  · simp [initCfg, vlookup]
  · intro n q dv h
    simp only [initCfg, vlookup] at h
    by_cases hn : P.start = n
    · rw [if_pos hn] at h
      cases h
    · rw [if_neg hn] at h
      cases h
  · intro n dv h
    simp only [initCfg, vlookup] at h
    by_cases hn : P.start = n
    · exact hn.symm
    · rw [if_neg hn] at h
      cases h
  · intro n pv dv h
    simp only [initCfg, vlookup] at h
    by_cases hn : P.start = n
    · rw [if_pos hn] at h
      cases h
      rw [← hn]
      exact WalkTo.start
    · rw [if_neg hn] at h
      cases h
  · intro s hs
    simp only [initCfg, List.mem_singleton] at hs
    subst hs
    exact ⟨none, 0, by simp [vlookup], le_refl _⟩
  · intro s hs
    simp only [initCfg, List.mem_singleton] at hs
    subst hs
    exact WalkTo.start
  · intro n pv dv h m w hmw
    simp only [initCfg, vlookup] at h
    by_cases hn : P.start = n
    · rw [if_pos hn] at h
      cases h
      right
      simp only [initCfg]
      rw [← hn]
      exact List.mem_singleton.mpr rfl
    · rw [if_neg hn] at h
      cases h
  · intro hGR z pz dz hz hlook
    simp only [initCfg, vlookup] at hlook
    by_cases hn : P.start = z
    · rw [if_pos hn] at hlook
      cases hlook
      simp only [initCfg]
      rw [← hn]
      exact List.mem_singleton.mpr rfl
    · rw [if_neg hn] at hlook
      cases hlook
  · intro hGR
    simp [initCfg] at hGR

theorem vset_keys_nodup {v : List (ℕ × Option ℕ × ℕ)} (hn : (v.map Prod.fst).Nodup)
    (n : ℕ) (val : Option ℕ × ℕ) : ((vset v n val).map Prod.fst).Nodup := by
  cases hl : vlookup v n with
  | some old => rw [vset_keys_of_some hl]; exact hn
  | none =>
    rw [vset_keys_of_none hl]
    rw [List.nodup_append]
    refine ⟨hn, List.nodup_singleton n, ?_⟩
    intro a ha hb
    rcases List.mem_singleton.mp hb with rfl
    exact (vlookup_none_iff.mp hl) ha

theorem RelaxOut.mono {stn : ℕ} {nbrs fr : List MS} {vis : List (ℕ × Option ℕ × ℕ)}
    {res : List MS × List (ℕ × Option ℕ × ℕ)} (R : RelaxOut stn nbrs fr vis res)
    {n : ℕ} {pv : Option ℕ} {dv : ℕ} (h : vlookup vis n = some (pv, dv)) :
    ∃ pv2 dv2, vlookup res.2 n = some (pv2, dv2) ∧ dv2 ≤ dv := by
  rcases R.change n with hc | ⟨nbr, -, -, hlook, -, hstrict⟩
  · exact ⟨pv, dv, hc.trans h, le_refl _⟩
  · exact ⟨some stn, nbr.dist, hlook, le_of_lt (hstrict pv dv h)⟩

theorem relaxStep_push (stn : ℕ) (nbr : MS) (rest fr : List MS)
    (vis : List (ℕ × Option ℕ × ℕ))
    (hcond : ∀ pv dv, vlookup vis nbr.node = some (pv, dv) → nbr.dist < dv)
    (heq : relaxList stn (nbr :: rest) (fr, vis) =
      relaxList stn rest (fr ++ [nbr], vset vis nbr.node (some stn, nbr.dist)))
    (R : RelaxOut stn rest (fr ++ [nbr]) (vset vis nbr.node (some stn, nbr.dist))
      (relaxList stn rest (fr ++ [nbr], vset vis nbr.node (some stn, nbr.dist)))) :
    RelaxOut stn (nbr :: rest) fr vis (relaxList stn (nbr :: rest) (fr, vis)) := by
  rw [heq]
  set vis1 := vset vis nbr.node (some stn, nbr.dist) with hvis1
  set res := relaxList stn rest (fr ++ [nbr], vis1) with hres
  refine ⟨?_, ?_, ?_, ?_, ?_⟩
  · obtain ⟨added, ha, hmem⟩ := R.append
    refine ⟨nbr :: added, by rw [ha]; simp, ?_⟩
    intro s hs
    rcases List.mem_cons.mp hs with rfl | hs'
    · exact List.mem_cons_self _ _
    · exact List.mem_cons_of_mem _ (hmem s hs')
  · intro n
    rcases R.change n with hc | ⟨nbr2, hm2, hn2, hlook2, hfr2, hstrict2⟩
    · by_cases hn : n = nbr.node
      · subst hn
        right
        refine ⟨nbr, List.mem_cons_self _ _, rfl, ?_, ?_, ?_⟩
        · rw [hc, hvis1]
          exact vset_lookup_self vis nbr.node (some stn, nbr.dist)
        · obtain ⟨added, ha, -⟩ := R.append
          rw [ha]
          exact List.mem_append_left _ (List.mem_append_right _ (List.mem_singleton.mpr rfl))
        · exact hcond
      · left
        rw [hc, hvis1]
        exact vset_lookup_other vis nbr.node n (some stn, nbr.dist) hn
    · right
      refine ⟨nbr2, List.mem_cons_of_mem _ hm2, hn2, hlook2, hfr2, ?_⟩
      intro pv dv hv
      by_cases hn : n = nbr.node
      · subst hn
        have hx : vlookup vis1 nbr.node = some (some stn, nbr.dist) := by
          rw [hvis1]; exact vset_lookup_self vis nbr.node (some stn, nbr.dist)
        exact lt_trans (hstrict2 (some stn) nbr.dist hx) (hcond pv dv hv)
      · have hx : vlookup vis1 n = some (pv, dv) := by
          rw [hvis1, vset_lookup_other vis nbr.node n (some stn, nbr.dist) hn]
          exact hv
        exact hstrict2 pv dv hx
  · intro nb hnb
    rcases List.mem_cons.mp hnb with rfl | hnb'
    · have hx : vlookup vis1 nb.node = some (some stn, nb.dist) := by
        rw [hvis1]; exact vset_lookup_self vis nb.node (some stn, nb.dist)
      obtain ⟨pv2, dv2, hl2, hle2⟩ := R.mono hx
      exact ⟨pv2, dv2, hl2, hle2⟩
    · exact R.relaxed nb hnb'
  · intro e he
    rcases R.entries e he with he' | ⟨nbr2, hm2, hn2⟩
    · rcases vset_mem he' with rfl | he''
      · exact Or.inr ⟨nbr, List.mem_cons_self _ _, rfl⟩
      · exact Or.inl he''
    · exact Or.inr ⟨nbr2, List.mem_cons_of_mem _ hm2, hn2⟩
  · intro hn
    exact R.goodkeys (vset_keys_nodup hn nbr.node (some stn, nbr.dist))

theorem relaxList_spec (stn : ℕ) :
    ∀ (nbrs fr : List MS) (vis : List (ℕ × Option ℕ × ℕ)),
      RelaxOut stn nbrs fr vis (relaxList stn nbrs (fr, vis)) := by
  intro nbrs
  induction nbrs with
  | nil =>
    intro fr vis
    refine ⟨⟨[], by simp [relaxList], by simp⟩, fun n => Or.inl rfl, ?_, ?_, fun h => h⟩
    · intro nbr h
      exact absurd h (List.not_mem_nil _)
    · intro e he
      exact Or.inl he
  | cons nbr rest ih =>
    intro fr vis
    cases hl : vlookup vis nbr.node with
    | none =>
      refine relaxStep_push stn nbr rest fr vis ?_ ?_ (ih _ _)
      · intro pv dv hv
        rw [hl] at hv
        cases hv
      · simp only [relaxList, hl]
    | some val =>
      obtain ⟨pv0, d0⟩ := val
      by_cases hd : nbr.dist < d0
      · refine relaxStep_push stn nbr rest fr vis ?_ ?_ (ih _ _)
        · intro pv dv hv
          rw [hl] at hv
          cases hv
          exact hd
        · simp only [relaxList, hl, if_pos hd]
      · have heq : relaxList stn (nbr :: rest) (fr, vis) = relaxList stn rest (fr, vis) := by
          simp only [relaxList, hl, if_neg hd]
        rw [heq]
        have R := ih fr vis
        refine ⟨?_, ?_, ?_, ?_, R.goodkeys⟩
        · obtain ⟨added, ha, hmem⟩ := R.append
          exact ⟨added, ha, fun s hs => List.mem_cons_of_mem _ (hmem s hs)⟩
        · intro n
          rcases R.change n with hc | ⟨nbr2, hm2, hn2, hlook2, hfr2, hstrict2⟩
          · exact Or.inl hc
          · exact Or.inr ⟨nbr2, List.mem_cons_of_mem _ hm2, hn2, hlook2, hfr2, hstrict2⟩
        · intro nb hnb
          rcases List.mem_cons.mp hnb with rfl | hnb'
          · obtain ⟨pv2, dv2, hl2, hle2⟩ := R.mono hl
            exact ⟨pv2, dv2, hl2, le_trans hle2 (le_of_not_lt hd)⟩
          · exact R.relaxed nb hnb'
        · intro e he
          rcases R.entries e he with he' | ⟨nbr2, hm2, hn2⟩
          · exact Or.inl he'
          · exact Or.inr ⟨nbr2, List.mem_cons_of_mem _ hm2, hn2⟩

theorem mem_getNeighbors {P : SProblem} {s nbr : MS} :
    nbr ∈ getNeighbors P s ↔
      ∃ w, (nbr.node, w) ∈ P.neighbors s.node ∧ nbr.dist = s.dist + w := by
  constructor
  · intro h
    obtain ⟨p, hp, heq⟩ := List.mem_map.mp h
    obtain ⟨m, w⟩ := p
    cases heq
    exact ⟨w, hp, rfl⟩
  · intro ⟨w, hw, hd⟩
    have hmem : (fun p => (⟨p.1, s.dist + p.2⟩ : MS)) (nbr.node, w) ∈ getNeighbors P s :=
      List.mem_map_of_mem _ hw
    have hnbr : nbr = (⟨nbr.node, s.dist + w⟩ : MS) := by rw [← hd]
    rw [hnbr]
    exact hmem

/-- The Dijkstra crossing lemma: under the invariant, every walk from the
start either ends in a settled cell of no larger recorded cost or meets the
frontier at no larger cost. -/
theorem walk_relaxed {P : SProblem} {fr : List MS} {vis : List (ℕ × Option ℕ × ℕ)}
    (hc : Core P fr vis) {z d : ℕ} (hw : WalkTo P z d) :
    (∃ pv dv, vlookup vis z = some (pv, dv) ∧ dv ≤ d) ∨
    (∃ s, s ∈ fr ∧ s.dist ≤ d) := by
  induction hw with
  | start => exact Or.inl ⟨none, 0, hc.vstart, le_refl 0⟩
  | step hwu hedge ih =>
    rename_i u du m w
    rcases ih with ⟨pu, dui, hlu, hdu⟩ | ⟨s, hs, hds⟩
    · rcases hc.relax u pu dui hlu m w hedge with ⟨pm, dm, hlm, hdm⟩ | hfr
      · exact Or.inl ⟨pm, dm, hlm, by omega⟩
      · exact Or.inr ⟨⟨u, dui⟩, hfr, by simp; omega⟩
    · exact Or.inr ⟨s, hs, by omega⟩

/-- While no goal has been recorded, a popped state's cost is a lower bound
on the cost of every walk from the start to any goal cell. -/
theorem goal_pop_optimal {P : SProblem} {c : Cfg} (hwf : WF P c)
    (hGR : c.goal_reached = false) {st : MS} {rest : List MS}
    (hpop : popMin c.frontier = some (st, rest)) :
    ∀ z d, P.isGoal z = true → WalkTo P z d → st.dist ≤ d := by
  intro z d hz hw
  rcases walk_relaxed hwf.core hw with ⟨pv, dv, hlv, hdv⟩ | ⟨s, hs, hds⟩
  · have hfr := hwf.goalfront hGR z pv dv hz hlv
    have := popMin_min hpop _ hfr
    simp at this
    omega
  · exact le_trans (popMin_min hpop s hs) hds

/-- Preservation of the loop invariant across one continuing step. -/
theorem astarStep_wf {P : SProblem} {c c2 : Cfg} (hwf : WF P c)
    (h : astarStep P c = .next c2) : WF P c2 := by
  obtain ⟨st, rest, hpop, hcond, hgr2, hgoal2, hlog, hfrvis⟩ := astarStep_next_inv P h
  have R : RelaxOut st.node (getNeighbors P st)
      (if P.isGoal st.node then rest ++ [st] else rest) c.visited
      (c2.frontier, c2.visited) := by
    rw [hfrvis]
    exact relaxList_spec st.node (getNeighbors P st) _ c.visited
  have hperm := popMin_perm hpop
  have hstfr : st ∈ c.frontier := hperm.symm.subset (List.mem_cons_self _ _)
  have hrest_sub : ∀ s ∈ rest, s ∈ c.frontier :=
    fun s hs => hperm.symm.subset (List.mem_cons_of_mem _ hs)
  have hfr1_sub : ∀ s, s ∈ (if P.isGoal st.node then rest ++ [st] else rest) →
      s ∈ c.frontier := by
    intro s hs
    split at hs
    · rcases List.mem_append.mp hs with hs' | hs'
      · exact hrest_sub s hs'
      · rcases List.mem_singleton.mp hs' with rfl
        exact hstfr
    · exact hrest_sub s hs
  have hfr1_c2 : ∀ s, s ∈ (if P.isGoal st.node then rest ++ [st] else rest) →
      s ∈ c2.frontier := by
    intro s hs
    obtain ⟨added, ha, -⟩ := R.append
    rw [show c2.frontier = (c2.frontier, c2.visited).1 from rfl, ha]
    exact List.mem_append_left _ hs
  obtain ⟨pst0, dst0, hlst0, hdst0⟩ := hwf.core.fvis st hstfr
  obtain ⟨pst, dst, hlst, hdst⟩ := R.mono hlst0
  have hdstst : dst ≤ st.dist := le_trans hdst hdst0
  have hwalkst : WalkTo P st.node st.dist := hwf.core.fwalk st hstfr
  refine ⟨⟨?_, ?_, ?_, ?_, ?_, ?_, ?_, ?_, ?_⟩, ?_, ?_⟩
  · exact R.goodkeys hwf.core.vkeys
  · intro e he
    rcases R.entries e he with he' | ⟨nbr, hnm, hn⟩
    · exact hwf.core.vbound e he'
    · obtain ⟨w, hw, -⟩ := mem_getNeighbors.mp hnm
      rw [hn]
      exact P.hclosed st.node (nbr.node, w) hw
  · rcases R.change P.start with hc | ⟨nbr, -, -, -, -, hstrict⟩
    · rw [show c2.visited = (c2.frontier, c2.visited).2 from rfl, hc]
      exact hwf.core.vstart
    · exact absurd (hstrict none 0 hwf.core.vstart) (Nat.not_lt_zero _)
  · intro n q dv hv
    rcases R.change n with hc | ⟨nbr, hnm, hn, hlook, -, -⟩
    · rw [show c2.visited = (c2.frontier, c2.visited).2 from rfl, hc] at hv
      obtain ⟨w, pq, dq, hedge, hlq, hle⟩ := hwf.core.vparent n q dv hv
      obtain ⟨pq2, dq2, hlq2, hdq2⟩ := R.mono hlq
      exact ⟨w, pq2, dq2, hedge, hlq2, by omega⟩
    · have heq2 : (some (some q, dv) : Option (Option ℕ × ℕ)) =
          some (some st.node, nbr.dist) := hv.symm.trans hlook
      obtain ⟨hq, hd⟩ : q = st.node ∧ dv = nbr.dist := by simpa using heq2
      obtain ⟨w, hw, hwd⟩ := mem_getNeighbors.mp hnm
      subst hq
      refine ⟨w, pst, dst, ?_, hlst, by omega⟩
      rw [← hn]
      exact hw
  · intro n dv hv
    rcases R.change n with hc | ⟨nbr, -, -, hlook, -, -⟩
    · rw [show c2.visited = (c2.frontier, c2.visited).2 from rfl, hc] at hv
      exact hwf.core.vparent_none n dv hv
    · have heq2 : (some ((none : Option ℕ), dv) : Option (Option ℕ × ℕ)) =
          some (some st.node, nbr.dist) := hv.symm.trans hlook
      simp at heq2
  · intro n pv dv hv
    rcases R.change n with hc | ⟨nbr, hnm, hn, hlook, -, -⟩
    · rw [show c2.visited = (c2.frontier, c2.visited).2 from rfl, hc] at hv
      exact hwf.core.vwalk n pv dv hv
    · have heq2 : (some (pv, dv) : Option (Option ℕ × ℕ)) =
          some (some st.node, nbr.dist) := hv.symm.trans hlook
      obtain ⟨-, hd2⟩ : pv = some st.node ∧ dv = nbr.dist := by simpa using heq2
      obtain ⟨w, hw, hwd⟩ := mem_getNeighbors.mp hnm
      have hdv : dv = st.dist + w := by omega
      rw [hdv, ← hn]
      exact WalkTo.step hwalkst hw
  · intro s hs
    obtain ⟨added, ha, hadd⟩ := R.append
    rw [show c2.frontier = (c2.frontier, c2.visited).1 from rfl, ha] at hs
    rcases List.mem_append.mp hs with hs' | hs'
    · obtain ⟨pv, dv, hlv, hdv⟩ := hwf.core.fvis s (hfr1_sub s hs')
      obtain ⟨pv2, dv2, hlv2, hdv2⟩ := R.mono hlv
      exact ⟨pv2, dv2, hlv2, by omega⟩
    · exact R.relaxed s (hadd s hs')
  · intro s hs
    obtain ⟨added, ha, hadd⟩ := R.append
    rw [show c2.frontier = (c2.frontier, c2.visited).1 from rfl, ha] at hs
    rcases List.mem_append.mp hs with hs' | hs'
    · exact hwf.core.fwalk s (hfr1_sub s hs')
    · obtain ⟨w, hw, hd⟩ := mem_getNeighbors.mp (hadd s hs')
      have hseq : s = (⟨s.node, st.dist + w⟩ : MS) := by rw [← hd]
      rw [hseq]
      exact WalkTo.step hwalkst hw
  · intro n pv dv hv m w hmw
    rcases R.change n with hc | ⟨nbr, hnm, hn, hlook, hfrmem, -⟩
    · rw [show c2.visited = (c2.frontier, c2.visited).2 from rfl, hc] at hv
      rcases hwf.core.relax n pv dv hv m w hmw with ⟨pm, dm, hlm, hdm⟩ | hfr
      · obtain ⟨pm2, dm2, hlm2, hdm2⟩ := R.mono hlm
        exact Or.inl ⟨pm2, dm2, hlm2, by omega⟩
      · have : (⟨n, dv⟩ : MS) ∈ st :: rest := hperm.subset hfr
        rcases List.mem_cons.mp this with heq | hmem
        · have hnode : n = st.node := congrArg MS.node heq
          have hdist : dv = st.dist := congrArg MS.dist heq
          have hmw2 : (m, w) ∈ P.neighbors st.node := hnode ▸ hmw
          have hnbrmem : (⟨m, st.dist + w⟩ : MS) ∈ getNeighbors P st :=
            mem_getNeighbors.mpr ⟨w, hmw2, rfl⟩
          obtain ⟨pm, dm, hlm, hdm⟩ := R.relaxed _ hnbrmem
          exact Or.inl ⟨pm, dm, hlm, by simp at hdm; omega⟩
        · right
          refine hfr1_c2 _ ?_
          split
          · exact List.mem_append_left _ hmem
          · exact hmem
    · right
      have heq2 : (some (pv, dv) : Option (Option ℕ × ℕ)) =
          some (some st.node, nbr.dist) := hv.symm.trans hlook
      have hdv : dv = nbr.dist := by
        obtain ⟨-, h2⟩ : pv = some st.node ∧ dv = nbr.dist := by simpa using heq2
        exact h2
      rw [hdv]
      exact hfrmem
  · intro hgr2f z pz dz hzg hzl
    have hng : P.isGoal st.node = false := by
      by_contra hx
      have hx' : P.isGoal st.node = true := by
        cases hy : P.isGoal st.node
        · exact absurd hy hx
        · rfl
      rw [hgr2, if_pos hx'] at hgr2f
      cases hgr2f
    have hgrf : c.goal_reached = false := by
      rw [hgr2, if_neg (by rw [hng]; exact fun hc => by cases hc)] at hgr2f
      exact hgr2f
    rcases R.change z with hc | ⟨nbr, -, -, hlook, hfrmem, -⟩
    · rw [show c2.visited = (c2.frontier, c2.visited).2 from rfl, hc] at hzl
      have hfr := hwf.goalfront hgrf z pz dz hzg hzl
      have : (⟨z, dz⟩ : MS) ∈ st :: rest := hperm.subset hfr
      rcases List.mem_cons.mp this with heq | hmem
      · exfalso
        have hnode : z = st.node := congrArg MS.node heq
        rw [hnode, hng] at hzg
        cases hzg
      · refine hfr1_c2 _ ?_
        split
        · exact List.mem_append_left _ hmem
        · exact hmem
    · have heq2 : (some (pz, dz) : Option (Option ℕ × ℕ)) =
          some (some st.node, nbr.dist) := hzl.symm.trans hlook
      have hdz : dz = nbr.dist := by
        obtain ⟨-, h2⟩ : pz = some st.node ∧ dz = nbr.dist := by simpa using heq2
        exact h2
      rw [hdz]
      exact hfrmem
  · intro hgr2t
    cases hg : P.isGoal st.node with
    | true =>
      have hgrf : c.goal_reached = false := by
        cases hy : c.goal_reached
        · rfl
        · exact absurd ⟨hy, hg⟩ hcond
      refine ⟨st, ?_, hg, ?_, ⟨pst, dst, hlst, hdstst⟩, ?_⟩
      · rw [hgoal2, if_pos hg]
      · refine ⟨st, hfr1_c2 st ?_, hg⟩
        rw [if_pos hg]
        exact List.mem_append_right _ (List.mem_singleton.mpr rfl)
      · exact goal_pop_optimal hwf hgrf hpop
    | false =>
      have hgrt : c.goal_reached = true := by
        rw [hgr2, if_neg (by rw [hg]; exact fun hc => by cases hc)] at hgr2t
        exact hgr2t
      obtain ⟨g, hgg, hgoalg, ⟨s, hsfr, hsg⟩, ⟨pg, dg, hlg, hdg⟩, hopt⟩ :=
        hwf.goalinv hgrt
      obtain ⟨pg2, dg2, hlg2, hdg2⟩ := R.mono hlg
      refine ⟨g, ?_, hgoalg, ?_, ⟨pg2, dg2, hlg2, by omega⟩, hopt⟩
      · rw [hgoal2, if_neg (by rw [hg]; exact fun hc => by cases hc)]
        exact hgg
      · have : s ∈ st :: rest := hperm.subset hsfr
        rcases List.mem_cons.mp this with heq | hmem
        · exfalso
          rw [heq, hg] at hsg
          cases hsg
        · refine ⟨s, hfr1_c2 s ?_, hsg⟩
          rw [if_neg (by rw [hg]; exact fun hc => by cases hc)]
          exact hmem

theorem keys_length_le {N : ℕ} {vis : List (ℕ × Option ℕ × ℕ)}
    (hk : (vis.map Prod.fst).Nodup) (hb : ∀ e ∈ vis, e.1 < N) : vis.length ≤ N := by
  have h1 : vis.length = (vis.map Prod.fst).length := by simp
  have h2 : (vis.map Prod.fst).length = (vis.map Prod.fst).toFinset.card :=
    (List.toFinset_card_of_nodup hk).symm
  have h3 : (vis.map Prod.fst).toFinset ⊆ Finset.range N := by
    intro a ha
    rw [List.mem_toFinset] at ha
    obtain ⟨e, he, hea⟩ := List.mem_map.mp ha
    rw [Finset.mem_range, ← hea]
    exact hb e he
  have h4 := Finset.card_le_card h3
  rw [Finset.card_range] at h4
  omega

theorem relaxList_measure (stn : ℕ) :
    ∀ (nbrs fr : List MS) (vis : List (ℕ × Option ℕ × ℕ)),
      vis.length ≤ (relaxList stn nbrs (fr, vis)).2.length ∧
      ((relaxList stn nbrs (fr, vis)).2.length = vis.length →
        ((relaxList stn nbrs (fr, vis)).2.map fun e => e.2.2).sum ≤
          (vis.map fun e => e.2.2).sum ∧
        (((relaxList stn nbrs (fr, vis)).2.map fun e => e.2.2).sum =
            (vis.map fun e => e.2.2).sum →
          relaxList stn nbrs (fr, vis) = (fr, vis))) := by
  intro nbrs
  induction nbrs with
  | nil =>
    intro fr vis
    exact ⟨le_refl _, fun _ => ⟨le_refl _, fun _ => rfl⟩⟩
  | cons nbr rest ih =>
    intro fr vis
    cases hl : vlookup vis nbr.node with
    | none =>
      have heq : relaxList stn (nbr :: rest) (fr, vis) =
          relaxList stn rest (fr ++ [nbr], vset vis nbr.node (some stn, nbr.dist)) := by
        simp only [relaxList, hl]
      rw [heq]
      have hlen1 := vset_length_of_none hl (some stn, nbr.dist)
      have IH := ih (fr ++ [nbr]) (vset vis nbr.node (some stn, nbr.dist))
      refine ⟨by omega, ?_⟩
      intro hlf
      omega
    | some val =>
      obtain ⟨pv0, d0⟩ := val
      by_cases hd : nbr.dist < d0
      · have heq : relaxList stn (nbr :: rest) (fr, vis) =
            relaxList stn rest (fr ++ [nbr], vset vis nbr.node (some stn, nbr.dist)) := by
          simp only [relaxList, hl, if_pos hd]
        rw [heq]
        have hlen1 := vset_length_of_some hl (some stn, nbr.dist)
        have hsum1 := vset_sum_of_improve hl (some stn, nbr.dist) hd
        have IH := ih (fr ++ [nbr]) (vset vis nbr.node (some stn, nbr.dist))
        refine ⟨by omega, ?_⟩
        intro hlf
        have IH2 := IH.2 (by omega)
        refine ⟨by omega, ?_⟩
        intro hsf
        omega
      · have heq : relaxList stn (nbr :: rest) (fr, vis) =
            relaxList stn rest (fr, vis) := by
          simp only [relaxList, hl, if_neg hd]
        rw [heq]
        exact ih fr vis

theorem astarStep_measure {P : SProblem} {c c2 : Cfg} (hwf : WF P c)
    (h : astarStep P c = .next c2) :
    (c.visited.length < c2.visited.length ∧ c2.visited.length ≤ P.numNodes) ∨
    (c2.visited.length = c.visited.length ∧
      (((c2.visited.map fun e => e.2.2).sum < (c.visited.map fun e => e.2.2).sum) ∨
       ((c2.visited.map fun e => e.2.2).sum = (c.visited.map fun e => e.2.2).sum ∧
        measureFr c2 < measureFr c))) := by
  obtain ⟨st, rest, hpop, hcond, hgr2, hgoal2, hlog, hfrvis⟩ := astarStep_next_inv P h
  have hvis2 : c2.visited =
      (relaxList st.node (getNeighbors P st)
        ((if P.isGoal st.node then rest ++ [st] else rest), c.visited)).2 :=
    congrArg Prod.snd hfrvis
  have hfr2 : c2.frontier =
      (relaxList st.node (getNeighbors P st)
        ((if P.isGoal st.node then rest ++ [st] else rest), c.visited)).1 :=
    congrArg Prod.fst hfrvis
  have M := relaxList_measure st.node (getNeighbors P st)
    (if P.isGoal st.node then rest ++ [st] else rest) c.visited
  have hwf2 := astarStep_wf hwf h
  have hcap : c2.visited.length ≤ P.numNodes :=
    keys_length_le hwf2.core.vkeys hwf2.core.vbound
  rcases Nat.lt_or_ge c.visited.length c2.visited.length with hlt | hge
  · exact Or.inl ⟨hlt, hcap⟩
  · have hle : c2.visited.length = c.visited.length := by
      rw [hvis2] at hge ⊢
      omega
    refine Or.inr ⟨hle, ?_⟩
    have M2 := M.2 (by rw [← hvis2]; exact hle)
    rcases Nat.lt_or_ge ((c2.visited.map fun e => e.2.2).sum)
        ((c.visited.map fun e => e.2.2).sum) with hslt | hsge
    · exact Or.inl hslt
    · have hseq : ((c2.visited.map fun e => e.2.2).sum) =
          ((c.visited.map fun e => e.2.2).sum) := by
        rw [hvis2] at hsge ⊢
        omega
      refine Or.inr ⟨hseq, ?_⟩
      have hfix := M2.2 (by rw [← hvis2]; exact hseq)
      have hfr2' : c2.frontier = (if P.isGoal st.node then rest ++ [st] else rest) := by
        rw [hfr2, hfix]
      have hflen : c.frontier.length = rest.length + 1 := by
        have := (popMin_perm hpop).length_eq
        simpa using this
      unfold measureFr
      rw [hfr2']
      cases hg : P.isGoal st.node with
      | true =>
        have hgrf : c.goal_reached = false := by
          cases hy : c.goal_reached
          · rfl
          · exact absurd ⟨hy, hg⟩ hcond
        have hgrt2 : c2.goal_reached = true := by
          rw [hgr2, if_pos hg]
        rw [if_pos rfl, hgrf, hgrt2]
        simp [hflen]
      | false =>
        have hgr2' : c2.goal_reached = c.goal_reached := by
          rw [hgr2, if_neg (by rw [hg]; exact fun hc => by cases hc)]
        rw [if_neg Bool.false_ne_true, hgr2']
        cases c.goal_reached <;> simp [hflen]

theorem astarLoop_term (P : SProblem) :
    ∀ a b d (c : Cfg), WF P c → P.numNodes - c.visited.length = a →
      (c.visited.map fun e => e.2.2).sum = b → measureFr c = d →
      ∃ fuel r, astarLoop P fuel c = some r := by
  intro a
  induction a using Nat.strong_induction_on with
  | _ a iha =>
  intro b
  induction b using Nat.strong_induction_on with
  | _ b ihb =>
  intro d
  induction d using Nat.strong_induction_on with
  | _ d ihd =>
  intro c hwf ha hb hd
  cases hstep : astarStep P c with
  | done r => exact ⟨1, r, by simp [astarLoop, hstep]⟩
  | next c2 =>
    have hwf2 := astarStep_wf hwf hstep
    rcases astarStep_measure hwf hstep with ⟨hlt, hcap⟩ | ⟨hlen, hrest⟩
    · have hlt2 : P.numNodes - c2.visited.length < a := by omega
      obtain ⟨fuel, r, hr⟩ := iha _ hlt2 _ _ c2 hwf2 rfl rfl rfl
      exact ⟨fuel + 1, r, by simp [astarLoop, hstep]; exact hr⟩
    · rcases hrest with hslt | ⟨hseq, hfr⟩
      · have hb2 : (c2.visited.map fun e => e.2.2).sum < b := by omega
        have ha2 : P.numNodes - c2.visited.length = a := by omega
        obtain ⟨fuel, r, hr⟩ := ihb _ hb2 _ c2 hwf2 ha2 rfl rfl
        exact ⟨fuel + 1, r, by simp [astarLoop, hstep]; exact hr⟩
      · have hd2 : measureFr c2 < d := by omega
        have ha2 : P.numNodes - c2.visited.length = a := by omega
        have hb2 : (c2.visited.map fun e => e.2.2).sum = b := by omega
        obtain ⟨fuel, r, hr⟩ := ihd _ hd2 c2 hwf2 ha2 hb2 rfl
        exact ⟨fuel + 1, r, by simp [astarLoop, hstep]; exact hr⟩

theorem astarLoop_mono {P : SProblem} :
    ∀ (f : ℕ) (c : Cfg) (r : AstarOutcome), astarLoop P f c = some r →
      ∀ f2, f ≤ f2 → astarLoop P f2 c = some r := by
  intro f
  induction f with
  | zero => intro c r h; cases h
  | succ f ih =>
    intro c r h f2 hle
    cases f2 with
    | zero => omega
    | succ f2' =>
      unfold astarLoop at h ⊢
      cases hstep : astarStep P c with
      | done r0 =>
        rw [hstep] at h
        exact h
      | next c2 =>
        rw [hstep] at h
        exact ih c2 r h f2' (by omega)

/-- Full correctness of the backtracking reconstruction: from any recorded
cell it returns the predecessor chain, which starts at the start cell, ends
at the queried cell, follows neighbor edges, and has at most cost/k edges
whenever every edge costs at least k. -/
theorem backtrackAux_correct {P : SProblem} {vis : List (ℕ × Option ℕ × ℕ)}
    (hparent : ∀ n q dv, vlookup vis n = some (some q, dv) →
      ∃ w pq dq, (n, w) ∈ P.neighbors q ∧ vlookup vis q = some (pq, dq) ∧ dq + w ≤ dv)
    (hpnone : ∀ n dv, vlookup vis n = some (none, dv) → n = P.start) :
    ∀ dv, ∀ n pv, vlookup vis n = some (pv, dv) → ∀ fuel, dv < fuel → ∀ acc,
      ∃ l, backtrackAux vis fuel n acc = some (l ++ acc) ∧
        l.head? = some P.start ∧ l.getLast? = some n ∧
        (l.Chain' fun u v => ∃ w, (v, w) ∈ P.neighbors u) ∧
        ∀ k, (∀ u p, p ∈ P.neighbors u → k ≤ p.2) → (l.length - 1) * k ≤ dv := by
  intro dv
  induction dv using Nat.strong_induction_on with
  | _ dv ih =>
  intro n pv hv fuel hfuel acc
  cases fuel with
  | zero => omega
  | succ f =>
    cases pv with
    | none =>
      have hn : n = P.start := hpnone n dv hv
      refine ⟨[n], ?_, by simp [hn], by simp, by simp, by simp⟩
      show backtrackAux vis (f + 1) n acc = some ([n] ++ acc)
      unfold backtrackAux
      simp [hv]
    | some q =>
      obtain ⟨w, pq, dq, hedge, hlq, hle⟩ := hparent n q dv hv
      have hwpos : 0 < w := P.hpos q (n, w) hedge
      have hdq : dq < dv := by omega
      obtain ⟨l, hbt, hhead, hlast, hchain, hlen⟩ :=
        ih dq hdq q pq hlq f (by omega) (n :: acc)
      have hlne : l ≠ [] := by
        intro hc
        rw [hc] at hhead
        cases hhead
      refine ⟨l ++ [n], ?_, ?_, ?_, ?_, ?_⟩
      · show backtrackAux vis (f + 1) n acc = some ((l ++ [n]) ++ acc)
        unfold backtrackAux
        simp only [hv]
        rw [hbt]
        simp
      · cases l with
        | nil => exact absurd rfl hlne
        | cons a l' => simpa using hhead
      · simp
      · refine List.Chain'.append hchain (List.chain'_singleton n) ?_
        intro x hx y hy
        rw [hlast] at hx
        rcases Option.mem_some_iff.mp hx with rfl
        rcases Option.mem_some_iff.mp (by simpa using hy) with rfl
        exact ⟨w, hedge⟩
      · intro k hkall
        have h1 := hlen k hkall
        have hkw : k ≤ w := hkall q (n, w) hedge
        have hl1 : 1 ≤ l.length := by
          cases l with
          | nil => exact absurd rfl hlne
          | cons a l' => simp
        have hglen : (l ++ [n]).length - 1 = l.length := by simp
        rw [hglen]
        have hstep2 : l.length * k = (l.length - 1) * k + k := by
          have h0 : l.length = l.length - 1 + 1 := by omega
          calc l.length * k = (l.length - 1 + 1) * k := by rw [← h0]
          _ = (l.length - 1) * k + k := by ring
        calc l.length * k = (l.length - 1) * k + k := hstep2
        _ ≤ dq + w := Nat.add_le_add h1 hkw
        _ ≤ dv := hle

theorem chain_to_walkN {P : SProblem} :
    ∀ (l : List ℕ) (z : ℕ), l.head? = some P.start →
      (l.Chain' fun u v => ∃ w, (v, w) ∈ P.neighbors u) →
      l.getLast? = some z → WalkN P z (l.length - 1) := by
  intro l
  induction l using List.reverseRecOn with
  | nil => intro z h; cases h
  | append_singleton l a ihl =>
    intro z hhead hchain hlast
    have hz : a = z := by
      rw [List.getLast?_concat] at hlast
      exact Option.some_injective _ hlast
    subst hz
    cases l with
    | nil =>
      have hs : a = P.start := by
        simpa using hhead
      subst hs
      simpa using WalkN.start
    | cons b l' =>
      rw [List.chain'_append] at hchain
      obtain ⟨hc1, -, hlink⟩ := hchain
      have hglast : (b :: l').getLast? = some ((b :: l').getLast (by simp)) :=
        List.getLast?_eq_getLast _ _
      obtain ⟨w, hw⟩ := hlink _ hglast a (by simp)
      have ihw := ihl ((b :: l').getLast (by simp)) (by simpa using hhead) hc1 hglast
      have := WalkN.step ihw hw
      have hlen : (b :: l' ++ [a]).length - 1 = ((b :: l').length - 1) + 1 := by
        simp
      rw [hlen]
      exact this

theorem walkN_to_walkTo {P : SProblem} {k : ℕ}
    (hk : ∀ u p, p ∈ P.neighbors u → p.2 = k) :
    ∀ {z e}, WalkN P z e → WalkTo P z (e * k) := by
  intro z e hw
  induction hw with
  | start =>
    have : (0 : ℕ) * k = 0 := by ring
    rw [this]
    exact WalkTo.start
  | step hwu hedge ihw =>
    rename_i u e m w
    have hwk : w = k := hk u (m, w) hedge
    have : (e + 1) * k = e * k + w := by rw [hwk]; ring
    rw [this]
    exact WalkTo.step ihw hedge

/-- What a returned path means, at any loop configuration satisfying the
invariant: it starts at the start cell, follows neighbor edges, and ends at
a goal whose recorded cost is minimal among all walks to goals and bounds
the path's edge count times any uniform lower bound on edge costs. -/
theorem astarLoop_path_correct {P : SProblem} :
    ∀ (fuel : ℕ) (c : Cfg) (p : List ℕ), WF P c →
      astarLoop P fuel c = some (.path p) →
      p.head? = some P.start ∧
      (p.Chain' fun u v => ∃ w, (v, w) ∈ P.neighbors u) ∧
      ∃ g : MS, p.getLast? = some g.node ∧ P.isGoal g.node = true ∧
        (∀ z d, P.isGoal z = true → WalkTo P z d → g.dist ≤ d) ∧
        ∀ k, (∀ u q, q ∈ P.neighbors u → k ≤ q.2) → (p.length - 1) * k ≤ g.dist := by
  intro fuel
  induction fuel with
  | zero => intro c p hwf h; cases h
  | succ f ih =>
    intro c p hwf h
    unfold astarLoop at h
    cases hstep : astarStep P c with
    | next c2 =>
      rw [hstep] at h
      exact ih c2 p (astarStep_wf hwf hstep) h
    | done r =>
      rw [hstep] at h
      cases h
      rcases astarStep_done_inv P hstep with ⟨-, hcase⟩ | ⟨st, rest, hpop, hgr, hg, hcase⟩
      · rcases hcase with ⟨-, hr⟩ | ⟨-, hr⟩ <;> cases hr
      · rcases hcase with ⟨-, hr⟩ | ⟨g, hgoal, hcase2⟩
        · cases hr
        · rcases hcase2 with ⟨-, hr⟩ | ⟨p2, hbt, hr⟩
          · cases hr
          · cases hr
            obtain ⟨g2, hg2, hgoalg, -, ⟨pg, dg, hlg, hdg⟩, hopt⟩ := hwf.goalinv hgr
            rw [hgoal] at hg2
            cases hg2
            obtain ⟨l, hbt2, hhead, hlast, hchain, hlen⟩ :=
              backtrackAux_correct hwf.core.vparent hwf.core.vparent_none
                dg g.node pg hlg (g.dist + 1) (by omega) []
            have hpl : p = l := by
              unfold backtrack at hbt
              rw [hbt] at hbt2
              injection hbt2 with hbt2
              rw [hbt2]
              simp
            subst hpl
            refine ⟨hhead, hchain, g, hlast, hgoalg, hopt, ?_⟩
            intro k hkall
            exact le_trans (hlen k hkall) hdg

/-- When no walk from the start reaches a goal, the loop can only exit with
the explicit no-path result. -/
theorem astarLoop_unreachable {P : SProblem}
    (hunreach : ∀ z d, WalkTo P z d → P.isGoal z = false) :
    ∀ (fuel : ℕ) (c : Cfg) (r : AstarOutcome), WF P c → c.goal_reached = false →
      astarLoop P fuel c = some r → r = .noPath := by
  intro fuel
  induction fuel with
  | zero => intro c r hwf hgr h; cases h
  | succ f ih =>
    intro c r hwf hgr h
    unfold astarLoop at h
    cases hstep : astarStep P c with
    | next c2 =>
      rw [hstep] at h
      obtain ⟨st, rest, hpop, hcond, hgr2, -, -, -⟩ := astarStep_next_inv P hstep
      have hstng : P.isGoal st.node = false := by
        have hstfr : st ∈ c.frontier :=
          (popMin_perm hpop).symm.subset (List.mem_cons_self _ _)
        exact hunreach st.node st.dist (hwf.core.fwalk st hstfr)
      have hgrf2 : c2.goal_reached = false := by
        rw [hgr2, if_neg (by rw [hstng]; exact Bool.false_ne_true), hgr]
      exact ih c2 r (astarStep_wf hwf hstep) hgrf2 h
    | done r0 =>
      rw [hstep] at h
      cases h
      rcases astarStep_done_inv P hstep with ⟨-, hcase⟩ | ⟨st, rest, hpop, hgrt, -, -⟩
      · rcases hcase with ⟨hgrt, hr⟩ | ⟨-, hr⟩
        · rw [hgr] at hgrt
          cases hgrt
        · exact hr
      · rw [hgr] at hgrt
        cases hgrt

/-- C6: for every search problem in which no walk from the start reaches a
goal cell, astar (run with enough loop fuel) returns the explicit no-path
result Python None, which is distinct from every successful path — in
particular from a path of length zero — and is not the raised-exception
outcome. -/
theorem C6_no_path (P : SProblem)
    (hunreach : ∀ z d, WalkTo P z d → P.isGoal z = false) :
    (∃ fuel, astar P fuel = some AstarOutcome.noPath) ∧
    ∀ p, (AstarOutcome.noPath : AstarOutcome) ≠ AstarOutcome.path p := by
  constructor
  · obtain ⟨fuel, r, hr⟩ :=
      astarLoop_term P _ _ _ (initCfg P) (WF_init P) rfl rfl rfl
    have hrnp : r = .noPath :=
      astarLoop_unreachable hunreach fuel (initCfg P) r (WF_init P) rfl hr
    refine ⟨fuel, ?_⟩
    unfold astar
    rw [if_neg (by simp [initCfg])]
    rw [hr, hrnp]
  · intro p h
    cases h

theorem P6_no_neighbors (u : ℕ) : P6.neighbors u = [] := by
  show [[], []].getD u [] = []
  match u with
  | 0 => rfl
  | 1 => rfl
  | n + 2 => rfl

theorem P6_unreachable : ∀ z d, WalkTo P6 z d → P6.isGoal z = false := by
  intro z d h
  cases h with
  | start => decide
  | step hw hedge =>
    exact absurd (P6_no_neighbors _ ▸ hedge) (List.not_mem_nil _)

/-- Witness for C6: on the concrete edgeless two-cell problem with
unreachable goal cell 1, astar returns the no-path outcome. -/
theorem C6_witness :
    (∀ z d, WalkTo P6 z d → P6.isGoal z = false) ∧
    ((∃ fuel, astar P6 fuel = some AstarOutcome.noPath) ∧
      ∀ p, (AstarOutcome.noPath : AstarOutcome) ≠ AstarOutcome.path p) :=
  ⟨P6_unreachable, C6_no_path P6 P6_unreachable⟩

/-- C3: on every search problem whose edge costs all equal a fixed positive
k, any path astar returns starts at the start cell, follows neighbor edges
to a goal cell, and its edge count is the minimum edge count of any walk
from the start to any goal cell — the breadth-first-search distance. -/
theorem C3_unit_cost_optimal (P : SProblem) (k : ℕ) (hk0 : 0 < k)
    (hk : ∀ u q, q ∈ P.neighbors u → q.2 = k) (fuel : ℕ) (p : List ℕ)
    (h : astar P fuel = some (AstarOutcome.path p)) :
    p.head? = some P.start ∧ listChain P p ∧
    (∃ z, p.getLast? = some z ∧ P.isGoal z = true ∧ WalkN P z (p.length - 1)) ∧
    (∀ z e, P.isGoal z = true → WalkN P z e → p.length - 1 ≤ e) := by
  have hloop : astarLoop P fuel (initCfg P) = some (.path p) := by
    unfold astar at h
    rw [if_neg (by simp [initCfg])] at h
    exact h
  obtain ⟨hhead, hchain, g, hlast, hgoalg, hopt, hlen⟩ :=
    astarLoop_path_correct fuel (initCfg P) p (WF_init P) hloop
  have hpne : p ≠ [] := by
    intro hc
    rw [hc] at hhead
    cases hhead
  have hwn : WalkN P g.node (p.length - 1) := chain_to_walkN p g.node hhead hchain hlast
  refine ⟨hhead, ⟨hpne, hchain⟩, ⟨g.node, hlast, hgoalg, hwn⟩, ?_⟩
  intro z e hz hwz
  have hwt : WalkTo P z (e * k) := walkN_to_walkTo hk hwz
  have h1 : g.dist ≤ e * k := hopt z (e * k) hz hwt
  have h2 : (p.length - 1) * k ≤ g.dist :=
    hlen k (fun u q hq => le_of_eq (hk u q hq).symm)
  exact Nat.le_of_mul_le_mul_right (le_trans h2 h1) hk0

theorem P3_unit : ∀ u q, q ∈ P3.neighbors u → q.2 = 1 := by
  intro u q hq
  obtain ⟨e, he, hpe⟩ :=
    getD_sound [[(1, 1), (2, 1)], [(3, 1)], [(3, 1)], []] u q hq
  fin_cases he <;> fin_cases hpe <;> rfl

/-- Witness for C3: on the concrete unit-cost problem astar returns the
path 0-1-3, which has the minimum number of edges to the goal. -/
theorem C3_witness :
    0 < 1 ∧ (∀ u q, q ∈ P3.neighbors u → q.2 = 1) ∧
    astar P3 10 = some (AstarOutcome.path [0, 1, 3]) ∧
    (([0, 1, 3] : List ℕ).head? = some P3.start ∧ listChain P3 [0, 1, 3] ∧
      (∃ z, ([0, 1, 3] : List ℕ).getLast? = some z ∧ P3.isGoal z = true ∧
        WalkN P3 z (([0, 1, 3] : List ℕ).length - 1)) ∧
      (∀ z e, P3.isGoal z = true → WalkN P3 z e →
        ([0, 1, 3] : List ℕ).length - 1 ≤ e)) :=
  ⟨by decide, P3_unit, by decide,
    C3_unit_cost_optimal P3 1 (by decide) P3_unit 10 [0, 1, 3] (by decide)⟩

end MP3

